import Mathlib

/-!
# Verification of the calico-rkt CNI plugin core against its specification

This development shallowly embeds the plugin's `utils` package
(`src/utils/utils.go`) together with the parts of the Go standard library
(`net`, `strings`, and the CNI `types.LoadArgs` argument loader) that its
behaviour depends on, and a spec-derived model of the ADD/DEL command core
(which is not part of the provided sources).

Strings are modelled as `List Char` (Go strings of ASCII text; all string
data handled by the functions under verification is ASCII).  Go byte slices
(`net.IP`, `net.IPMask`) are modelled as `List Nat` with every element
below 256.
-/

deriving instance DecidableEq for Except

/-- Go strings, modelled as lists of characters. -/
abbrev GoStr := List Char

/-- Go `net.IP` / `net.IPMask`: a byte slice.  `[]` plays the role of Go's
`nil` slice where the code only ever checks the length. -/
abbrev GoBytes := List Nat

namespace GoNet

/-- Decimal digit test, as in Go's `'0' <= s[i] && s[i] <= '9'`. -/
def isDigitCh (c : Char) : Bool := decide ('0' ≤ c ∧ c ≤ '9')

/-- Lower-case hex letter test. -/
def isHexLower (c : Char) : Bool := decide ('a' ≤ c ∧ c ≤ 'f')

/-- Upper-case hex letter test. -/
def isHexUpper (c : Char) : Bool := decide ('A' ≤ c ∧ c ≤ 'F')

/-- Any hex digit (the three cases accepted by Go's `xtoi`). -/
def isHexCh (c : Char) : Bool := isDigitCh c || isHexLower c || isHexUpper c

/-- The character for a decimal digit `d < 10`. -/
def digitCh (d : Nat) : Char := Char.ofNat ('0'.toNat + d)

/-- Go `net.uitoa` (net/parse.go): decimal representation of an unsigned
integer.  The Go loop emits the least-significant digit into the end of a
buffer; this is the usual most-significant-first accumulator recursion,
written with structural fuel (`fuel ≥ n` suffices, since a number has no
more digits than its value). -/
def uitoaAux : Nat → Nat → List Char → List Char
  | 0, _, acc => acc
  | _+1, 0, acc => acc
  | fuel+1, n, acc => uitoaAux fuel (n / 10) (digitCh (n % 10) :: acc)

/-- Go `net.uitoa`. -/
def uitoa (n : Nat) : List Char := if n = 0 then ['0'] else uitoaAux n n []

/-- `big` constant from net/parse.go: `0xFFFFFF`. -/
def bigConst : Nat := 0xFFFFFF

/-- Loop of Go `net.dtoi`.  State: remaining characters, accumulator `n`,
characters consumed so far `i`.  Returns `(n, i, ok)` exactly as the Go
function does (including the `(big, i, false)` overflow result and the
`(0, 0, false)` empty result). -/
def dtoiAux : List Char → Nat → Nat → Nat × Nat × Bool
  | [], n, i => if i = 0 then (0, 0, false) else (n, i, true)
  | c :: rest, n, i =>
    if isDigitCh c then
      let n' := n * 10 + (c.toNat - '0'.toNat)
      if n' ≥ bigConst then (bigConst, i, false) else dtoiAux rest n' (i+1)
    else if i = 0 then (0, 0, false) else (n, i, true)

/-- Go `net.dtoi`: parse a decimal prefix. -/
def dtoi (s : List Char) : Nat × Nat × Bool := dtoiAux s 0 0

/-- Value of one hex digit character (partial inverse of Go's `hexDigit`
table lookup). -/
def hexVal (c : Char) : Nat :=
  if isDigitCh c then c.toNat - '0'.toNat
  else if isHexLower c then c.toNat - 'a'.toNat + 10
  else c.toNat - 'A'.toNat + 10

/-- Loop of Go `net.xtoi`.  Returns `(n, i, ok)`; overflow gives
`(0, i, false)` as in the Go source. -/
def xtoiAux : List Char → Nat → Nat → Nat × Nat × Bool
  | [], n, i => if i = 0 then (0, i, false) else (n, i, true)
  | c :: rest, n, i =>
    if isHexCh c then
      let n' := n * 16 + hexVal c
      if n' ≥ bigConst then (0, i, false) else xtoiAux rest n' (i+1)
    else if i = 0 then (0, i, false) else (n, i, true)

/-- Go `net.xtoi`: parse a hexadecimal prefix. -/
def xtoi (s : List Char) : Nat × Nat × Bool := xtoiAux s 0 0

/-- Go's `hexDigit` table: `"0123456789abcdef"[d]`. -/
def hexDigitCh (d : Nat) : Char :=
  if d < 10 then digitCh d else Char.ofNat ('a'.toNat + (d - 10))

/-- Go `net.appendHex` for one 16-bit group: emits the (at most four)
nibbles of `n`, skipping leading zero nibbles, and emits `"0"` for zero.
The Go loop runs the nibble index from high to low and prints
`hexDigit[v&0xf]` whenever the shifted value `v` is positive. -/
def appendHex (n : Nat) : List Char :=
  if n = 0 then ['0']
  else
    (if n / 4096 > 0 then [hexDigitCh (n / 4096 % 16)] else []) ++
    (if n / 256 > 0 then [hexDigitCh (n / 256 % 16)] else []) ++
    (if n / 16 > 0 then [hexDigitCh (n / 16 % 16)] else []) ++
    [hexDigitCh (n % 16)]

/-- The 12-byte IPv4-in-IPv6 marker (`v4InV6Prefix` in net/ip.go) that Go
checks for in `IP.To4` and `IP.Equal`. -/
def v4InV6Head : GoBytes := [0, 0, 0, 0, 0, 0, 0, 0, 0, 0, 0xff, 0xff]

/-- Go `net.IPv4(a, b, c, d)`: the 16-byte v4-mapped representation. -/
def ipv4Of (a b c d : Nat) : GoBytes := v4InV6Head ++ [a, b, c, d]

/-- Go `IP.To4`: the 4-byte form of an IPv4 or IPv4-mapped address,
`none` (Go `nil`) otherwise. -/
def to4 (ip : GoBytes) : Option GoBytes :=
  if ip.length = 4 then some ip
  else if ip.length = 16 && ip.take 12 == v4InV6Head then some (ip.drop 12)
  else none

/-- Byte `i` of the mask produced by Go `net.CIDRMask(ones, _)`: `0xff`
while at least 8 ones remain, otherwise `^byte(0xff >> r)` for the `r`
remaining ones (`Nat` subtraction gives 0 when no ones remain). -/
def cidrMaskByte (ones i : Nat) : Nat :=
  if 8 * (i + 1) ≤ ones then 255 else 256 - 2 ^ (8 - (ones - 8 * i))

/-- Go `net.CIDRMask`: `[]` (Go `nil`) when `bits` is not 32 or 128 or
`ones > bits`. -/
def cidrMask (ones bits : Nat) : GoBytes :=
  if (bits = 32 ∨ bits = 128) ∧ ones ≤ bits then
    (List.range (bits / 8)).map (cidrMaskByte ones)
  else []

/-- Go `IP.Mask(mask)`: slices a 16-byte mask against a 4-byte address
(and conversely a v4-mapped address against a 4-byte mask), then ANDs
byte-wise; `[]` (Go `nil`) on a length mismatch. -/
def ipMaskOp (ip mask : GoBytes) : GoBytes :=
  let m := if mask.length = 16 ∧ ip.length = 4 ∧ (mask.take 12).all (· == 255)
           then mask.drop 12 else mask
  let p := if m.length = 4 ∧ ip.length = 16 ∧ ip.take 12 == v4InV6Head
           then ip.drop 12 else ip
  if p.length = m.length then (p.zip m).map (fun q => q.1 &&& q.2) else []

/-- Go `IP.Equal`: byte equality up to the v4-mapped embedding. -/
def ipEqual (a b : GoBytes) : Bool :=
  if a.length = b.length then a == b
  else if a.length = 4 ∧ b.length = 16 then
    b.take 12 == v4InV6Head && a == b.drop 12
  else if a.length = 16 ∧ b.length = 4 then
    a.take 12 == v4InV6Head && b == a.drop 12
  else false

/-- Leading-ones count of a single mask byte, `none` when the byte is not
of the form `11…10…0` (the inner bit loop of Go `simpleMaskLength`). -/
def byteLeadOnes (v : Nat) : Option Nat :=
  (List.range 9).find? (fun k => v == 256 - 2 ^ (8 - k))

/-- Go `net.simpleMaskLength`: total number of leading one bits, `none`
(Go `-1`) unless the mask is ones followed by zeros. -/
def simpleMaskLength : GoBytes → Option Nat
  | [] => some 0
  | v :: rest =>
    if v = 255 then (simpleMaskLength rest).map (8 + ·)
    else match byteLeadOnes v with
      | none => none
      | some k => if rest.all (· == 0) then some k else none

/-- Go `net.hexString`: two lower-case hex digits per byte. -/
def hexString (bs : GoBytes) : List Char :=
  bs.flatMap (fun b => [hexDigitCh (b / 16 % 16), hexDigitCh (b % 16)])

/-- Go `IPMask.String`. -/
def maskStr (m : GoBytes) : List Char :=
  if m.isEmpty then "<nil>".toList else hexString m

/-- Dotted-decimal rendering of a 4-byte address (the `To4` branch of Go
`IP.String`). -/
def dotted : GoBytes → List Char
  | [a, b, c, d] => uitoa a ++ ".".toList ++ uitoa b ++ ".".toList ++ uitoa c ++ ".".toList ++ uitoa d
  | _ => []

/-- The 16-bit groups of a 16-byte address: `(p[i]<<8) | p[i+1]`. -/
def groupsOf : GoBytes → List Nat
  | a :: b :: rest => (a * 256 + b) :: groupsOf rest
  | _ => []

/-- The zero-run scan of the IPv6 branch of Go `IP.String`, element-wise
over the group list.  `cur` is the start of the zero run currently open,
`best` is `(start, length)` of the best run so far (Go's `e0`/`e1`, in
group units); a new run replaces `best` only when strictly longer, so the
leftmost longest run wins exactly as in the Go loop. -/
def bestRunAux : List Nat → Nat → Option Nat → Nat × Nat → Nat × Nat
  | [], _, none, best => best
  | [], i, some s, best => if i - s > best.2 then (s, i - s) else best
  | g :: rest, i, cur, best =>
    if g = 0 then
      bestRunAux rest (i + 1) (some (cur.getD i)) best
    else match cur with
      | none => bestRunAux rest (i + 1) none best
      | some s =>
        bestRunAux rest (i + 1) none (if i - s > best.2 then (s, i - s) else best)

/-- The selected `::` run: discarded when only one group long (Go's final
`if e1-e0 <= 2` check, which is in byte units). -/
def bestRun (gs : List Nat) : Option (Nat × Nat) :=
  let best := bestRunAux gs 0 none (0, 0)
  if best.2 ≤ 1 then none else some best

/-- `':'`-separated concatenation (the way the Go emit loop separates
ordinary adjacent groups). -/
def interColon : List (List Char) → List Char
  | [] => []
  | [x] => x
  | x :: y :: t => x ++ ':' :: interColon (y :: t)

/-- The IPv6 branch of Go `IP.String`: hex groups joined by `':'`, with
the selected zero run replaced by `"::"` (the Go emit loop writes `"::"`
at `e0`, skips to `e1`, and separates all other groups with one `':'`,
which yields exactly this shape, including a leading or trailing `"::"`
when the run touches an end). -/
def ipv6Str (ip : GoBytes) : List Char :=
  let gs := groupsOf ip
  match bestRun gs with
  | none => interColon (gs.map appendHex)
  | some (a, l) =>
    interColon ((gs.take a).map appendHex) ++ "::".toList ++
      interColon ((gs.drop (a + l)).map appendHex)

/-- Go `IP.String`. -/
def ipStr (ip : GoBytes) : List Char :=
  if ip.isEmpty then "<nil>".toList
  else match to4 ip with
    | some p4 => dotted p4
    | none => if ip.length ≠ 16 then '?' :: hexString ip else ipv6Str ip

/-- Go `net.networkNumberAndMask`: normalises an `IPNet` for printing;
`none` (Go `nil, nil`) for inconsistent combinations. -/
def nnAndMask (ip mask : GoBytes) : Option (GoBytes × GoBytes) :=
  let ipOut? : Option GoBytes :=
    match to4 ip with
    | some p => some p
    | none => if ip.length = 16 then some ip else none
  match ipOut? with
  | none => none
  | some nn =>
    if mask.length = 4 then (if nn.length ≠ 4 then none else some (nn, mask))
    else if mask.length = 16 then
      some (nn, if nn.length = 4 then mask.drop 12 else mask)
    else none

/-- Go `IPNet.String`. -/
def ipNetStr (ip mask : GoBytes) : List Char :=
  match nnAndMask ip mask with
  | none => "<nil>".toList
  | some (nn, m) =>
    match simpleMaskLength m with
    | none => ipStr nn ++ "/".toList ++ maskStr m
    | some l => ipStr nn ++ "/".toList ++ uitoa l

/-- Loop of Go `net.parseIPv4`: `k` fields remain; the `acc.isEmpty` test
plays the role of Go's `i > 0` (a `'.'` separator is consumed before every
field but the first). -/
def parseIPv4Aux : Nat → List Char → GoBytes → Option GoBytes
  | 0, s, acc => if s.isEmpty then some (v4InV6Head ++ acc) else none
  | k + 1, s, acc =>
    if s.isEmpty then none
    else
      match (if acc.isEmpty then some s else
              match s with
              | '.' :: r => some r
              | _ => none) with
      | none => none
      | some s' =>
        match dtoi s' with
        | (n, c, ok) =>
          if ok && n ≤ 0xFF then parseIPv4Aux k (s'.drop c) (acc ++ [n]) else none

/-- Go `net.parseIPv4`; the result is the 16-byte `IPv4(...)` form, as in
Go 1.12's net package. -/
def parseIPv4 (s : List Char) : Option GoBytes := parseIPv4Aux 4 s []

example : parseIPv4 ("10.0.0.1".toList) = some (ipv4Of 10 0 0 1) := by decide
example : parseIPv4 ("10.0.0.256".toList) = none := by decide
example : parseIPv4 ("10.0.0".toList) = none := by decide

/-- One pass of the main loop of Go `net.parseIPv6`.  `bytes` is the
prefix of the address written so far (Go's `ip[0:i]`), `ell` the byte
index of the `"::"` marker if one was seen (Go's `ellipsis`).  The result
carries the state at loop exit together with the unconsumed input;
`none` is Go's `return nil`.  `fuel` only bounds the recursion: every
iteration consumes at least one character and writes at least two bytes,
so `fuel = 9` can never run out before the `i < 16` loop condition
fails. -/
def p6loop : Nat → List Char → GoBytes → Option Nat →
    Option (GoBytes × Option Nat × List Char)
  | 0, s, bytes, ell => some (bytes, ell, s)
  | fuel + 1, s, bytes, ell =>
    if bytes.length ≥ 16 then some (bytes, ell, s)
    else
      match xtoi s with
      | (n, c, ok) =>
        if ¬ok ∨ n > 0xFFFF then none
        else if (s.drop c).head? = some '.' then
          -- embedded trailing IPv4 address
          if ell = none ∧ bytes.length ≠ 12 then none
          else if bytes.length + 4 > 16 then none
          else
            match parseIPv4 s with
            | none => none
            | some ip4 => some (bytes ++ ip4.drop 12, ell, [])
        else
          let bytes' := bytes ++ [n / 256, n % 256]
          match s.drop c with
          | [] => some (bytes', ell, [])
          | ':' :: s2 =>
            if s2.isEmpty then none
            else
              match s2 with
              | ':' :: s3 =>
                if ell ≠ none then none
                else if s3.isEmpty then some (bytes', some bytes'.length, [])
                else p6loop fuel s3 bytes' (some bytes'.length)
              | _ => p6loop fuel s2 bytes' ell
          | _ => none

/-- The code after the loop in Go `net.parseIPv6`: reject trailing input,
then expand the `"::"` marker by shifting the bytes after it to the end
and zero-filling the gap. -/
def p6finish : Option (GoBytes × Option Nat × List Char) → Option GoBytes
  | none => none
  | some (bytes, ell, s) =>
    if ¬s.isEmpty then none
    else if bytes.length < 16 then
      match ell with
      | none => none
      | some e => some (bytes.take e ++ List.replicate (16 - bytes.length) 0 ++ bytes.drop e)
    else if ell ≠ none then none
    else some bytes

/-- Go `net.parseIPv6` (Go 1.12 form, without zone handling). -/
def parseIPv6 (s : List Char) : Option GoBytes :=
  match s with
  | ':' :: ':' :: rest =>
    if rest.isEmpty then some (List.replicate 16 0)
    else p6finish (p6loop 9 rest [] (some 0))
  | _ => p6finish (p6loop 9 s [] none)

/-- Go `net.splitHostZone`: split at the last `'%'`, provided it is not
the first character. -/
def splitHostZone (s : List Char) : List Char × List Char :=
  match s.reverse.findIdx? (· == '%') with
  | none => (s, [])
  | some ri =>
    let i := s.length - 1 - ri
    if i > 0 then (s.take i, s.drop (i + 1)) else (s, [])

/-- Go `net.parseIPv6Zone` (the address part; the zone is irrelevant
here). -/
def parseIPv6Zone (s : List Char) : Option GoBytes :=
  parseIPv6 (splitHostZone s).1

/-- Go `net.ParseIP`: dispatch on the first `'.'` or `':'`. -/
def parseIP (s : List Char) : Option GoBytes :=
  match s.find? (fun c => c == '.' || c == ':') with
  | some '.' => parseIPv4 s
  | some ':' => parseIPv6Zone s
  | _ => none

/-- Go `net.ParseCIDR`.  Returns `(ip, network, mask)` — the address, the
masked network number, and the mask — or `none` for Go's error return. -/
def parseCIDR (s : List Char) : Option (GoBytes × GoBytes × GoBytes) :=
  match s.findIdx? (· == '/') with
  | none => none
  | some i =>
    let addr := s.take i
    let maskDigits := s.drop (i + 1)
    let ip4 := parseIPv4 addr
    let ip : Option GoBytes := match ip4 with
      | some p => some p
      | none => parseIPv6Zone addr
    let iplen : Nat := if ip4.isSome then 4 else 16
    match ip with
    | none => none
    | some p =>
      match dtoi maskDigits with
      | (n, c, ok) =>
        if ¬ok ∨ c ≠ maskDigits.length ∨ n > 8 * iplen then none
        else
          let m := cidrMask n (8 * iplen)
          some (p, ipMaskOp p m, m)

example : parseIPv6 ("::".toList) = some (List.replicate 16 0) := by decide
example : parseIPv6 ("2001:db8::1".toList) =
    some [0x20, 0x01, 0x0d, 0xb8, 0, 0, 0, 0, 0, 0, 0, 0, 0, 0, 0, 1] := by decide
example : ipv6Str [0x20, 0x01, 0x0d, 0xb8, 0, 0, 0, 0, 0, 0, 0, 0, 0, 0, 0, 1] =
    "2001:db8::1".toList := by decide
example : ipv6Str [0xfe, 0x80, 0, 0, 0, 1, 0, 0, 0, 0, 0, 0, 0, 0, 0, 0] =
    "fe80:0:1::".toList := by decide
example : parseIPv6 ("fe80:0:1::".toList) =
    some [0xfe, 0x80, 0, 0, 0, 1, 0, 0, 0, 0, 0, 0, 0, 0, 0, 0] := by decide
example : parseIPv6 ("1:2:3:4:5:6:7:8".toList) =
    some [0, 1, 0, 2, 0, 3, 0, 4, 0, 5, 0, 6, 0, 7, 0, 8] := by decide
example : ipv6Str [0, 1, 0, 2, 0, 3, 0, 4, 0, 5, 0, 6, 0, 7, 0, 8] =
    "1:2:3:4:5:6:7:8".toList := by decide
example : parseIPv6 ("::ffff:10.0.0.1".toList) = some (ipv4Of 10 0 0 1) := by decide
example : parseCIDR ("10.0.0.1/32".toList) =
    some (ipv4Of 10 0 0 1, [10, 0, 0, 1], [255, 255, 255, 255]) := by decide
example : parseCIDR ("2001:db8::1/128".toList) =
    some ([0x20, 0x01, 0x0d, 0xb8, 0, 0, 0, 0, 0, 0, 0, 0, 0, 0, 0, 1],
          [0x20, 0x01, 0x0d, 0xb8, 0, 0, 0, 0, 0, 0, 0, 0, 0, 0, 0, 1],
          List.replicate 16 255) := by decide
example : parseCIDR ("<nil>".toList) = none := by decide
example : ipNetStr [10, 0, 0, 1] [255, 255, 255, 255] = "10.0.0.1/32".toList := by decide
example : ipNetStr [0x20, 0x01, 0x0d, 0xb8, 0, 0, 0, 0, 0, 0, 0, 0, 0, 0, 0, 1]
    (List.replicate 16 255) = "2001:db8::1/128".toList := by decide
example : ipNetStr [0x20, 0x01, 0x0d, 0xb8, 0, 0, 0, 0, 0, 0, 0, 0, 0, 0, 0, 1]
    [255, 255, 255, 255] = "<nil>".toList := by decide
example : ipNetStr [10, 0, 0, 1] (List.replicate 16 255) = "10.0.0.1/32".toList := by decide
example : ipNetStr (ipv4Of 10 0 0 1) [255, 255, 255, 255] = "10.0.0.1/32".toList := by decide

example : uitoa 0 = ['0'] := by decide
example : uitoa 254 = ['2', '5', '4'] := by decide
example : dtoi ('2' :: '5' :: '4' :: '.' :: []) = (254, 3, true) := by decide
example : dtoi ('.' :: []) = (0, 0, false) := by decide
example : xtoi ('f' :: 'e' :: '8' :: '0' :: ':' :: []) = (0xfe80, 4, true) := by decide
example : appendHex 0xfe80 = ['f', 'e', '8', '0'] := by decide
example : appendHex 0 = ['0'] := by decide
example : appendHex 0x2a = ['2', 'a'] := by decide

end GoNet

namespace Utils

/-- The fields of the plugin's `types.NetConf` that the embedded functions
read (`name`, `nodename`, `hostname`, `ipam.type`, `ipam.subnet`); absent
JSON fields are the empty string, as for Go's zero value. -/
structure NetConf where
  name : GoStr := []
  nodename : GoStr := []
  hostname : GoStr := []
  ipamType : GoStr := []
  ipamSubnet : GoStr := []
deriving DecidableEq

/-- `utils.nodenameFromFile`: the contents of `/var/lib/calico/nodename`.
The file system is a parameter: `fileRead = some data` models a successful
`ioutil.ReadFile`, `none` models both absence of the file and a read
error — in both of which the Go function returns `""`. -/
def nodenameFromFile (fileRead : Option GoStr) : GoStr := fileRead.getD []

/-- `utils.DetermineNodename`.  `osHostname` stands for the result of
`names.Hostname()` (whose error is discarded by the code).  The second
component records whether the deprecation warning for `hostname` was
logged. -/
def DetermineNodename (conf : NetConf) (fileRead : Option GoStr)
    (osHostname : GoStr) : GoStr × Bool :=
  let n0 := osHostname
  let withHost := if conf.hostname ≠ [] then conf.hostname else n0
  let warned := conf.hostname ≠ []
  let nff := nodenameFromFile fileRead
  let withFile := if nff ≠ [] then nff else withHost
  let final := if conf.nodename ≠ [] then conf.nodename else withFile
  (final, warned)

/-- Character class of the network-name regex
`^[a-zA-Z0-9_\.\-]+$` in `utils.ValidateNetworkName`. -/
def isNameCh (c : Char) : Bool :=
  decide (('a' ≤ c ∧ c ≤ 'z') ∨ ('A' ≤ c ∧ c ≤ 'Z') ∨ ('0' ≤ c ∧ c ≤ '9') ∨
          c = '_' ∨ c = '.' ∨ c = '-')

/-- `utils.ValidateNetworkName`; `some msg` is the error return.  The
anchored pattern `^[…]+$` matches a string exactly when it is non-empty
and every character is in the class (the pattern is a constant, so
`regexp.MatchString`'s compile-error branch is unreachable). -/
def ValidateNetworkName (name : GoStr) : Option GoStr :=
  if name.isEmpty ∨ ¬(name.all isNameCh) then
    some ("invalid characters detected in the given network name".toList)
  else none

/-- `utils.CreateClient`: validation of the network name followed by the
construction of the datastore client.  Everything after the validation
(environment-variable marshalling, `apiconfig.LoadClientConfig`,
`client.New`) is an external effect, collapsed into the `mkClient`
parameter; clients themselves are opaque (`Nat`). -/
def CreateClient (conf : NetConf) (mkClient : Except GoStr Nat) : Except GoStr Nat :=
  match ValidateNetworkName conf.name with
  | some e => .error e
  | none => mkClient

/-- Character class `[-_.a-zA-Z0-9]` of `utils.SanitizeMesosLabel`'s
`invalidChar` regex (which matches the complement). -/
def isLabelCh (c : Char) : Bool :=
  decide (c = '-' ∨ c = '_' ∨ c = '.' ∨ ('a' ≤ c ∧ c ≤ 'z') ∨
          ('A' ≤ c ∧ c ≤ 'Z') ∨ ('0' ≤ c ∧ c ≤ '9'))

/-- `'.'` or `'-'`, the class `[.-]` used by `SanitizeMesosLabel`'s other
two regexes. -/
def isDotDash (c : Char) : Bool := c == '.' || c == '-'

/-- `invalidChar.ReplaceAllString(s, "-")`: each maximal run of characters
outside `[-_.a-zA-Z0-9]` (the matches of `[^-_.a-zA-Z0-9]+`) becomes a
single `'-'`.  The boolean records whether the previous character was part
of such a run. -/
def replInv : List Char → Bool → List Char
  | [], _ => []
  | c :: rest, prevBad =>
    if isLabelCh c then c :: replInv rest false
    else if prevBad then replInv rest true
    else '-' :: replInv rest true

/-- `dotDashSeq.ReplaceAllString(s, ".")`: each maximal run of `[.-]`
characters that contains at least one `'.'` (the matches of
`[.-]*[.][.-]*` under greedy matching) becomes a single `'.'`; pure-dash
runs are untouched.  `fuel ≥ length` makes the run-splitting recursion
structural. -/
def collapseAux : Nat → List Char → List Char
  | 0, _ => []
  | _ + 1, [] => []
  | fuel + 1, c :: rest =>
    if isDotDash c then
      let run := c :: rest.takeWhile isDotDash
      let rest' := rest.dropWhile isDotDash
      (if run.contains '.' then ['.'] else run) ++ collapseAux fuel rest'
    else c :: collapseAux fuel rest

/-- See `collapseAux`. -/
def collapseDots (s : List Char) : List Char := collapseAux s.length s

/-- The capture group of `^[.-]*(.*?)[.-]*$`: the string with its maximal
leading run of `[.-]` (greedy `^[.-]*`) and then its maximal trailing run
(lazy `(.*?)` forces the shortest middle) removed. -/
def trimDD (s : List Char) : List Char :=
  ((s.dropWhile isDotDash).reverse.dropWhile isDotDash).reverse

/-- `utils.SanitizeMesosLabel`: `/` → `.`, then the three regex rewrites
in source order. -/
def SanitizeMesosLabel (s : GoStr) : GoStr :=
  trimDD (collapseDots (replInv (s.map (fun c => if c = '/' then '.' else c)) false))

example : SanitizeMesosLabel ("/a#/b!!c..d".toList) = "a.b-c.d".toList := by decide
example : SanitizeMesosLabel ("--a--b..-.c--".toList) = "a--b.c".toList := by decide
example : SanitizeMesosLabel ("...".toList) = [] := by decide

/-- Go `unicode` simple case folding, restricted to the code points that
can fold onto ASCII: the ASCII letters themselves plus U+017F (ſ → s) and
U+212A (K → k).  `strings.EqualFold` agrees with folded equality whenever
one side is ASCII, which covers every comparison in this code base (the
literal `"usePodCidr"`). -/
def foldCh (c : Char) : Char :=
  if decide ('A' ≤ c ∧ c ≤ 'Z') then Char.ofNat (c.toNat + 32)
  else if c = Char.ofNat 0x17F then 's'
  else if c = Char.ofNat 0x212A then 'k'
  else c

/-- Model of `strings.EqualFold` (see `foldCh`). -/
def goEqualFold (s t : GoStr) : Bool := s.map foldCh == t.map foldCh

/-- The stdin JSON of a DEL invocation, structurally: the
`ipam.subnet` field that `CleanUpIPAM` rewrites, and the remaining fields
of the `ipam` object and of the top level, which it does not touch.  (The
code's `json.Unmarshal`/`json.Marshal` round trip and its
`stdinData["ipam"]` assertion are modelled by this structure; the claims
concern well-formed NetConf stdin, where `ipam` is present.) -/
structure StdinData where
  ipamSubnet : GoStr := []
  ipamRest : List (GoStr × GoStr) := []
  topRest : List (GoStr × GoStr) := []
deriving DecidableEq

/-- The stdin that `utils.CleanUpIPAM` hands to `ipam.ExecDel`: rewritten
to carry the dummy `0.0.0.0/0` subnet exactly for `host-local` IPAM with a
(case-folded) `usePodCidr` subnet, and passed through unchanged
otherwise. -/
def CleanUpIPAMStdin (conf : NetConf) (stdin : StdinData) : StdinData :=
  if conf.ipamType = "host-local".toList ∧
      goEqualFold conf.ipamSubnet ("usePodCidr".toList) = true then
    { stdin with ipamSubnet := "0.0.0.0/0".toList }
  else stdin

/-- `utils.GetHandleID` (the `workload` argument is only logged). -/
def GetHandleID (netName containerID : GoStr) : GoStr :=
  netName ++ ".".toList ++ containerID

/-- One entry of `current.Result.IPs`: `Version` together with the
`Address` field's IP and mask. -/
structure IPConfig where
  version : GoStr := []
  ip : GoBytes := []
  mask : GoBytes := []
deriving DecidableEq

/-- The part of `current.Result` the embedded functions read. -/
structure CNIResult where
  ips : List IPConfig := []
deriving DecidableEq

/-- The part of `api.WorkloadEndpoint` the embedded functions read:
`Spec.IPNetworks`, a list of CIDR strings. -/
structure WorkloadEndpoint where
  ipNetworks : List GoStr := []
deriving DecidableEq

/-- `utils.PopulateEndpointNets`.  Returns the error (if any) together
with the updated endpoint and Result, since the Go function mutates both
in place (it overwrites each `ipNet.Address.Mask` before stringifying). -/
def PopulateEndpointNets (wep : WorkloadEndpoint) (result : CNIResult) :
    Option GoStr × WorkloadEndpoint × CNIResult :=
  if result.ips.isEmpty then
    (some ("IPAM plugin did not return any IP addresses".toList), wep, result)
  else
    let forced := result.ips.map (fun c =>
      { c with mask := if c.version = "4".toList then GoNet.cidrMask 32 32
                       else GoNet.cidrMask 128 128 })
    (none,
     { wep with ipNetworks :=
        wep.ipNetworks ++ forced.map (fun c => GoNet.ipNetStr c.ip c.mask) },
     { result with ips := forced })

/-- Loop of `utils.CreateResultFromEndpoint`: `net.ParseCIDR` each stored
string; the produced entry carries the *masked* network (`*ipNet`) as its
address and a version derived from `ipAddr.To4()`. -/
def createResultAux : List GoStr → List IPConfig → Option (List IPConfig)
  | [], acc => some acc
  | v :: rest, acc =>
    match GoNet.parseCIDR v with
    | none => none
    | some (ipAddr, netIP, m) =>
      let ver := if (GoNet.to4 ipAddr).isSome then "4".toList else "6".toList
      createResultAux rest (acc ++ [{ version := ver, ip := netIP, mask := m }])

/-- `utils.CreateResultFromEndpoint`; `none` is the error return. -/
def CreateResultFromEndpoint (wep : WorkloadEndpoint) : Option CNIResult :=
  (createResultAux wep.ipNetworks []).map (fun l => { ips := l })

/-- `strings.ToLower`, restricted to ASCII (the values compared by the
argument loader are ASCII). -/
def toLowerAscii (s : GoStr) : GoStr :=
  s.map (fun c => if decide ('A' ≤ c ∧ c ≤ 'Z') then Char.ofNat (c.toNat + 32) else c)

/-- `cnitypes.UnmarshallableBool.UnmarshalText`: lower-case, then accept
exactly `1/true/0/false`. -/
def parseUnmBool (v : GoStr) : Option Bool :=
  let s := toLowerAscii v
  if s = "1".toList ∨ s = "true".toList then some true
  else if s = "0".toList ∨ s = "false".toList then some false
  else none

/-- `strings.Split` on a one-character separator. -/
def splitOnCh (sep : Char) : List Char → List (List Char)
  | [] => [[]]
  | c :: rest =>
    if c = sep then [] :: splitOnCh sep rest
    else match splitOnCh sep rest with
      | [] => [[c]]
      | f :: r => (c :: f) :: r

/-- How a struct field consumes its `UnmarshalText` value: plain string
(`cnitypes.UnmarshallableString`), boolean flag, or `net.IP`. -/
inductive FieldKind
  | str
  | boolean
  | ipaddr
deriving DecidableEq

/-- The reflected fields of `types.K8sArgs` (embedded
`cnitypes.CommonArgs` contributing `IgnoreUnknown`). -/
def k8sArgsFields : List (GoStr × FieldKind) :=
  [("IgnoreUnknown".toList, .boolean), ("IP".toList, .ipaddr),
   ("K8S_POD_NAME".toList, .str), ("K8S_POD_NAMESPACE".toList, .str),
   ("K8S_POD_INFRA_CONTAINER_ID".toList, .str)]

/-- The reflected fields of `types.CNITestArgs`. -/
def cniTestArgsFields : List (GoStr × FieldKind) :=
  [("IgnoreUnknown".toList, .boolean), ("CNI_TEST_NAMESPACE".toList, .str)]

/-- The state `cnitypes.LoadArgs` builds up: the string-typed fields that
have been assigned (later pairs overwrite earlier ones) and the
`IgnoreUnknown` flag. -/
structure ArgsRecord where
  vals : List (GoStr × GoStr) := []
  ignoreUnknown : Bool := false
deriving DecidableEq

/-- Last-wins field assignment. -/
def setVal (vals : List (GoStr × GoStr)) (k v : GoStr) : List (GoStr × GoStr) :=
  (k, v) :: vals.filter (fun p => p.1 ≠ k)

/-- Read a string field; unset fields are Go's zero value `""`. -/
def getVal (vals : List (GoStr × GoStr)) (k : GoStr) : GoStr :=
  ((vals.find? (fun p => p.1 == k)).map (fun p => p.2)).getD []

/-- Pair loop of `cnitypes.LoadArgs`: each `key=value` pair either updates
a known field (with its `UnmarshalText`), or is collected as unknown; a
pair that does not split into exactly two parts is an immediate error.
The boolean accumulator is `len(unknownArgs) > 0`.  A parsed `IP` value is
never read back by this code, so only its parse success is retained. -/
def loadArgsAux (fields : List (GoStr × FieldKind)) :
    List (List Char) → ArgsRecord → Bool → Option (ArgsRecord × Bool)
  | [], st, unk => some (st, unk)
  | pair :: rest, st, unk =>
    match splitOnCh '=' pair with
    | [k, v] =>
      match fields.find? (fun f => f.1 == k) with
      | none => loadArgsAux fields rest st true
      | some (_, kind) =>
        match kind with
        | .str => loadArgsAux fields rest { st with vals := setVal st.vals k v } unk
        | .boolean =>
          match parseUnmBool v with
          | none => none
          | some b => loadArgsAux fields rest { st with ignoreUnknown := b } unk
        | .ipaddr =>
          if v.isEmpty ∨ (GoNet.parseIP v).isSome then loadArgsAux fields rest st unk
          else none
    | _ => none

/-- `cnitypes.LoadArgs`: empty input is accepted immediately; otherwise
split on `';'`, process every pair, and fail afterwards when unknown keys
were seen and `IgnoreUnknown` is not set. -/
def loadArgs (fields : List (GoStr × FieldKind)) (args : GoStr) : Option ArgsRecord :=
  if args.isEmpty then some {}
  else
    match loadArgsAux fields (splitOnCh ';' args) {} false with
    | none => none
    | some (st, unk) => if unk ∧ ¬st.ignoreUnknown then none else some st

/-- The CNI `skel.CmdArgs` fields read by `GetIdentifiers`. -/
structure CmdArgs where
  containerID : GoStr := []
  ifName : GoStr := []
  args : GoStr := []
deriving DecidableEq

/-- `utils.WEPIdentifiers`, flattened (the embedded
`names.WorkloadEndpointIdentifiers` contributes `containerID`, `node`,
`orchestrator`, `endpoint`, `pod`; `WEPName` and `Workload` are never
assigned by `GetIdentifiers`). -/
structure WEPIdentifiers where
  nsName : GoStr := []
  containerID : GoStr := []
  node : GoStr := []
  orchestrator : GoStr := []
  endpoint : GoStr := []
  pod : GoStr := []
deriving DecidableEq

/-- `utils.GetIdentifiers`; `none` is the error return (a failed
`LoadArgs` of `K8sArgs`). -/
def GetIdentifiers (args : CmdArgs) (nodename : GoStr) : Option WEPIdentifiers :=
  match loadArgs k8sArgsFields args.args with
  | none => none
  | some st =>
    let podName := getVal st.vals ("K8S_POD_NAME".toList)
    let podNs := getVal st.vals ("K8S_POD_NAMESPACE".toList)
    if ¬podNs.isEmpty ∧ ¬podName.isEmpty then
      some { nsName := podNs, containerID := args.containerID, node := nodename,
             orchestrator := "k8s".toList, endpoint := args.ifName, pod := podName }
    else
      let base : WEPIdentifiers :=
        { nsName := "default".toList, containerID := args.containerID, node := nodename,
          orchestrator := "cni".toList, endpoint := args.ifName, pod := [] }
      match loadArgs cniTestArgsFields args.args with
      | none => some base
      | some st2 =>
        let tns := getVal st2.vals ("CNI_TEST_NAMESPACE".toList)
        if ¬tns.isEmpty then some { base with nsName := tns } else some base

example :
    GetIdentifiers { containerID := "abcd".toList, ifName := "eth0".toList,
                     args := "IgnoreUnknown=1;K8S_POD_NAMESPACE=test;K8S_POD_NAME=p1".toList }
      ("node1".toList) =
    some { nsName := "test".toList, containerID := "abcd".toList, node := "node1".toList,
           orchestrator := "k8s".toList, endpoint := "eth0".toList, pod := "p1".toList } := by
  decide

example :
    GetIdentifiers { containerID := "abcd".toList, ifName := "eth0".toList,
                     args := "K8S_POD_NAMESPACE=test".toList } ("node1".toList) =
    some { nsName := "default".toList, containerID := "abcd".toList, node := "node1".toList,
           orchestrator := "cni".toList, endpoint := "eth0".toList, pod := [] } := by
  decide

example :
    GetIdentifiers { containerID := "abcd".toList, ifName := "eth0".toList,
                     args := "IgnoreUnknown=true;CNI_TEST_NAMESPACE=myns".toList } ("node1".toList) =
    some { nsName := "myns".toList, containerID := "abcd".toList, node := "node1".toList,
           orchestrator := "cni".toList, endpoint := "eth0".toList, pod := [] } := by
  decide

example :
    GetIdentifiers { containerID := "abcd".toList, ifName := "eth0".toList,
                     args := "BOGUS_KEY=1".toList } ("node1".toList) = none := by
  decide

end Utils

namespace SpecCore

/-!
The ADD/DEL command core of the plugin (`cmdAdd`/`cmdDel` and the
Kubernetes pod handling) is not among the provided sources — only its
tests are.  The definitions in this namespace are therefore modelled from
the specification (spec §4.1 "ADD/DEL Command Core", §4.5 "Datastore
Reconciler" and §3 "Data Model"), in the Kubernetes orchestrator flavour
the relevant claims are about.
-/

/-- Modelled from the spec: the per-invocation inputs of the missing
command core (NetConf network name plus the resolved identifier tuple of
spec §3, in k8s mode). -/
structure CmdEnv where
  netName : GoStr := []
  nsName : GoStr := []
  pod : GoStr := []
  containerID : GoStr := []
  node : GoStr := []
  ifName : GoStr := []
deriving DecidableEq

/-- Modelled from the spec: the deterministic k8s endpoint name
`<Node>-k8s-<Pod>-<Endpoint>` of spec §3. -/
def wepName (env : CmdEnv) : GoStr :=
  env.node ++ "-k8s-".toList ++ env.pod ++ "-".toList ++ env.ifName

/-- Modelled from the spec: the persisted WorkloadEndpoint fields the
ADD/DEL core reads and writes (spec §3). -/
structure SpecWEP where
  name : GoStr := []
  nsName : GoStr := []
  pod : GoStr := []
  containerID : GoStr := []
  endpoint : GoStr := []
  ipNetworks : List GoStr := []
deriving DecidableEq

/-- Modelled from the spec: the two persistent stores the core touches —
WorkloadEndpoints in the datastore and the IPAM delegate's handles (one
handle string `<network>.<ContainerID>` per reservation, spec §3). -/
structure DatastoreState where
  endpoints : List SpecWEP := []
  handles : List GoStr := []
deriving DecidableEq

/-- Modelled from the spec: `ListByPod` of the datastore reconciler
(spec §4.5), used for duplicate detection. -/
def listByPod (s : DatastoreState) (ns pod : GoStr) : List SpecWEP :=
  s.endpoints.filter (fun w => w.nsName == ns && w.pod == pod)

/-- Modelled from the spec: `GetEndpoint(namespace, name)` of the
datastore reconciler (spec §4.5). -/
def findEndpoint (s : DatastoreState) (env : CmdEnv) : Option SpecWEP :=
  s.endpoints.find? (fun w => w.name == wepName env && w.nsName == env.nsName)

/-- Modelled from the spec: the DEL command (spec §4.1 "DEL contract" and
§4.5 `Delete(namespace, name, expectedContainerID)`): missing endpoint
and ContainerID mismatch are no-op successes; a matching DEL removes the
endpoint and releases its IPAM handle.  The first component is the
process exit code (DEL always exits 0). -/
def cmdDel (env : CmdEnv) (s : DatastoreState) : Nat × DatastoreState :=
  match findEndpoint s env with
  | none => (0, s)
  | some w =>
    if w.containerID ≠ env.containerID then (0, s)
    else
      (0, { endpoints := s.endpoints.filter
              (fun x => !(x.name == wepName env && x.nsName == env.nsName)),
            handles := s.handles.filter
              (fun h => h ≠ Utils.GetHandleID env.netName env.containerID) })

/-- Modelled from the spec: the `/32`-or-`/128` CIDR synthesised for one
literal `ipAddrsNoIpam` address (spec §4.1 "IPAM"). -/
def ipNetOfAddr (ip : GoBytes) : GoStr :=
  match GoNet.to4 ip with
  | some p4 => GoNet.ipNetStr p4 (GoNet.cidrMask 32 32)
  | none => GoNet.ipNetStr ip (GoNet.cidrMask 128 128)

/-- Number of IPv4 addresses (by Go's `To4` test) in a parsed
`ipAddrsNoIpam` annotation value. -/
def countV4 (ips : List GoBytes) : Nat :=
  (ips.filter (fun ip => (GoNet.to4 ip).isSome)).length

/-- Number of non-IPv4 addresses in a parsed `ipAddrsNoIpam` annotation
value. -/
def countV6 (ips : List GoBytes) : Nat :=
  (ips.filter (fun ip => !(GoNet.to4 ip).isSome)).length

/-- Modelled from the spec: publishing a WorkloadEndpoint (spec §4.1
"Publish", §4.5 `CreateOrUpdate`).  Per the one-endpoint-per-pod
invariant of spec §3, publishing makes the new endpoint the only one for
its `(Namespace, Pod)`. -/
def publish (env : CmdEnv) (nets : List GoStr) (s : DatastoreState)
    (hs : List GoStr) : DatastoreState :=
  { endpoints := s.endpoints.filter
      (fun x => !(x.nsName == env.nsName && x.pod == env.pod)) ++
      [{ name := wepName env, nsName := env.nsName, pod := env.pod,
         containerID := env.containerID, endpoint := env.ifName, ipNetworks := nets }],
    handles := hs }

/-- Record one IPAM reservation handle (set-like). -/
def addHandle (hs : List GoStr) (h : GoStr) : List GoStr :=
  if hs.contains h then hs else hs ++ [h]

/-- Modelled from the spec: the tail of the ADD command once duplicate
detection is done — annotation handling (`ipAddrsNoIpam` must fail when
more than one address of a family is requested), IPAM delegation
(abstracted into the deterministic `alloc` oracle, which yields the
handle `<network>.<ContainerID>`), wiring (no datastore effect) and
publication (spec §4.1 "ADD contract"). -/
def freshAdd (alloc : GoStr → GoStr → List GoStr) (annots : Option (List GoBytes))
    (env : CmdEnv) (s : DatastoreState) : Except GoStr (List GoStr) × DatastoreState :=
  match annots with
  | some ips =>
    if 1 < countV4 ips ∨ 1 < countV6 ips then
      (.error ("cannot have more than one address per family with ipAddrsNoIpam".toList), s)
    else
      let nets := ips.map ipNetOfAddr
      (.ok nets, publish env nets s s.handles)
  | none =>
    let nets := alloc env.netName env.containerID
    (.ok nets,
     publish env nets s (addHandle s.handles (Utils.GetHandleID env.netName env.containerID)))

/-- Modelled from the spec: the ADD command (spec §4.1 "ADD contract").
Validation, then duplicate detection on `(Namespace, Pod)`: an endpoint
with the same ContainerID makes the ADD a no-op returning the stored
Result (for a different stored interface name the spec likewise returns
the stored endpoint's state without rewiring); an endpoint with a
different ContainerID is superseded — deleted, its handle released — and
the ADD proceeds as a fresh one.  `annots` is the parsed
`cni.projectcalico.org/ipAddrsNoIpam` annotation of the pod, if present.
The returned Result is its list of assigned CIDRs (spec §4.1 "Emit"). -/
def cmdAdd (alloc : GoStr → GoStr → List GoStr) (annots : Option (List GoBytes))
    (env : CmdEnv) (s : DatastoreState) : Except GoStr (List GoStr) × DatastoreState :=
  match Utils.ValidateNetworkName env.netName with
  | some e => (.error e, s)
  | none =>
    match (listByPod s env.nsName env.pod).head? with
    | some w =>
      if w.containerID == env.containerID then (.ok w.ipNetworks, s)
      else
        let s' : DatastoreState :=
          { endpoints := s.endpoints.filter (fun x => !(x == w)),
            handles := s.handles.filter
              (fun h => h ≠ Utils.GetHandleID env.netName w.containerID) }
        freshAdd alloc annots env s'
    | none => freshAdd alloc annots env s

/-- The one-endpoint-per-(Namespace, Pod) well-formedness of a datastore
state (the spec §3 invariant), as a decidable check. -/
def uniquePodsB : List SpecWEP → Bool
  | [] => true
  | w :: rest =>
    rest.all (fun x => !(x.nsName == w.nsName && x.pod == w.pod)) && uniquePodsB rest

end SpecCore

section ClaimTheorems

open SpecCore Utils GoNet

/-- **C1.** For every DEL invocation whose `CNI_CONTAINERID` differs from
the ContainerID stored on the pod's WorkloadEndpoint, the command succeeds
(exit code 0) and leaves the datastore — both the WorkloadEndpoint and its
IPAM handle — unchanged; and DEL removes the endpoint only when the stored
ContainerID equals the incoming `CNI_CONTAINERID`. -/
theorem cmdDel_stale_noop (env : CmdEnv) (s : DatastoreState) :
    ((∃ w, findEndpoint s env = some w ∧ w.containerID ≠ env.containerID) →
      cmdDel env s = (0, s)) ∧
    (∀ w, findEndpoint s env = some w →
      findEndpoint (cmdDel env s).2 env = none →
      w.containerID = env.containerID) := by
  constructor
  · rintro ⟨w, hw, hne⟩
    simp [cmdDel, hw, hne]
  · intro w hw hdel
    by_contra hne
    have hmain : cmdDel env s = (0, s) := by simp [cmdDel, hw, hne]
    rw [hmain] at hdel
    simp [hw] at hdel

def c1Env : CmdEnv :=
  { netName := "net1".toList, nsName := "test".toList, pod := "p1".toList,
    containerID := "X".toList, node := "n".toList, ifName := "eth0".toList }

def c1Wep : SpecWEP :=
  { name := wepName c1Env, nsName := "test".toList, pod := "p1".toList,
    containerID := "Y".toList, endpoint := "eth0".toList,
    ipNetworks := ["10.0.0.1/32".toList] }

def c1State : DatastoreState :=
  { endpoints := [c1Wep], handles := [GetHandleID ("net1".toList) ("Y".toList)] }

/-- Witness for `cmdDel_stale_noop`: a concrete stale DEL (stored
ContainerID "Y", incoming "X") exits 0 and leaves the state untouched. -/
theorem cmdDel_stale_noop_witness : cmdDel c1Env c1State = (0, c1State) :=
  (cmdDel_stale_noop c1Env c1State).1 ⟨c1Wep, by decide, by decide⟩

/-- **C3.** An ADD for a pod whose `cni.projectcalico.org/ipAddrsNoIpam`
annotation lists more than one IPv4 address (or more than one IPv6
address) fails, and afterwards no WorkloadEndpoint for that pod exists in
the datastore (stated for a pod that has no pre-existing endpoint, as in
the test this claim cites). -/
theorem cmdAdd_multi_noipam_fails (alloc : GoStr → GoStr → List GoStr)
    (env : CmdEnv) (s : DatastoreState) (ips : List GoBytes)
    (hclean : listByPod s env.nsName env.pod = [])
    (hmulti : 1 < countV4 ips ∨ 1 < countV6 ips) :
    (∃ e, (cmdAdd alloc (some ips) env s).1 = .error e) ∧
    listByPod (cmdAdd alloc (some ips) env s).2 env.nsName env.pod = [] := by
  unfold cmdAdd
  cases hval : ValidateNetworkName env.netName with
  | some e => exact ⟨⟨e, rfl⟩, hclean⟩
  | none =>
    simp only [hclean, List.head?_nil, freshAdd, if_pos hmulti]
    exact ⟨⟨_, rfl⟩, by simp [hclean]⟩


theorem listByPod_publish (env : CmdEnv) (nets : List GoStr) (s : DatastoreState)
    (hs : List GoStr) :
    listByPod (publish env nets s hs) env.nsName env.pod =
      [{ name := wepName env, nsName := env.nsName, pod := env.pod,
         containerID := env.containerID, endpoint := env.ifName, ipNetworks := nets }] := by
  unfold listByPod publish
  simp [List.filter_append, List.filter_filter]

theorem uniquePodsB_le_one (l : List SpecWEP) (h : uniquePodsB l = true) (ns pod : GoStr) :
    (l.filter (fun w => w.nsName == ns && w.pod == pod)).length ≤ 1 := by
  induction l with
  | nil => simp
  | cons w rest ih =>
    unfold uniquePodsB at h
    rw [Bool.and_eq_true] at h
    obtain ⟨hall, hrest⟩ := h
    by_cases hw : (w.nsName == ns && w.pod == pod) = true
    · have hnil : rest.filter (fun x => x.nsName == ns && x.pod == pod) = [] := by
        rw [List.filter_eq_nil_iff]
        intro x hx
        have hx2 := List.all_eq_true.mp hall x hx
        simp only [Bool.and_eq_true, beq_iff_eq] at hw ⊢
        simp only [Bool.not_eq_true', Bool.and_eq_false_iff, beq_eq_false_iff_ne, ne_eq] at hx2
        rintro ⟨hxn, hxp⟩
        rcases hx2 with h' | h' <;> [exact h' (hxn.trans hw.1.symm); exact h' (hxp.trans hw.2.symm)]
      simp [List.filter_cons, hw, hnil]
    · simp only [List.filter_cons, hw, Bool.false_eq_true, if_false]
      exact ih hrest

theorem freshAdd_publish (alloc : GoStr → GoStr → List GoStr)
    (annots : Option (List GoBytes)) (env : CmdEnv) (s0 s1 : DatastoreState)
    (r : List GoStr) (h : freshAdd alloc annots env s0 = (.ok r, s1)) :
    ∃ hs, s1 = publish env r s0 hs := by
  cases annots with
  | some ips =>
    simp only [freshAdd] at h
    by_cases hm : 1 < countV4 ips ∨ 1 < countV6 ips
    · rw [if_pos hm] at h
      exact absurd h (by simp)
    · rw [if_neg hm] at h
      simp only [Prod.mk.injEq, Except.ok.injEq] at h
      obtain ⟨h1, h2⟩ := h
      exact ⟨s0.handles, by rw [← h2, ← h1]⟩
  | none =>
    simp only [freshAdd, Prod.mk.injEq, Except.ok.injEq] at h
    obtain ⟨h1, h2⟩ := h
    exact ⟨_, by rw [← h2, ← h1]⟩

theorem cmdAdd_after_publish (alloc : GoStr → GoStr → List GoStr)
    (annots : Option (List GoBytes)) (env : CmdEnv) (s0 : DatastoreState)
    (r : List GoStr) (hs : List GoStr)
    (hval : ValidateNetworkName env.netName = none) :
    cmdAdd alloc annots env (publish env r s0 hs) = (.ok r, publish env r s0 hs) ∧
    (listByPod (publish env r s0 hs) env.nsName env.pod).length = 1 := by
  have hlp := listByPod_publish env r s0 hs
  refine ⟨?_, by rw [hlp]; rfl⟩
  unfold cmdAdd
  simp only [hval, hlp, List.head?_cons, beq_self_eq_true, if_pos]

/-- **C2.** For every successful ADD, a second ADD with identical inputs
(same NetConf network, same identifiers, same ContainerID, same interface
name, same `ipAddrsNoIpam` annotation state) is a no-op: it succeeds with
a Result equal to the first ADD's Result and leaves the datastore — in
particular the IPAM reservations — exactly as the first ADD left it, with
exactly one WorkloadEndpoint for the pod.  The datastore is assumed
well-formed (at most one endpoint per `(Namespace, Pod)`, the spec §3
invariant). -/
theorem cmdAdd_idempotent (alloc : GoStr → GoStr → List GoStr)
    (annots : Option (List GoBytes)) (env : CmdEnv) (s s1 : DatastoreState)
    (r : List GoStr)
    (hU : uniquePodsB s.endpoints = true)
    (h1 : cmdAdd alloc annots env s = (.ok r, s1)) :
    cmdAdd alloc annots env s1 = (.ok r, s1) ∧
    (listByPod s1 env.nsName env.pod).length = 1 := by
  cases hval : ValidateNetworkName env.netName with
  | some e =>
    simp only [cmdAdd, hval] at h1
    exact absurd h1 (by simp)
  | none =>
    cases hhead : (listByPod s env.nsName env.pod).head? with
    | some w =>
      simp only [cmdAdd, hval, hhead] at h1
      by_cases hcid : (w.containerID == env.containerID) = true
      · rw [if_pos hcid] at h1
        simp only [Prod.mk.injEq, Except.ok.injEq] at h1
        obtain ⟨hr, hs1⟩ := h1
        subst hs1
        constructor
        · unfold cmdAdd
          simp only [hval, hhead, if_pos hcid, hr]
        · have hge : 0 < (listByPod s env.nsName env.pod).length := by
            cases hl : listByPod s env.nsName env.pod with
            | nil => rw [hl] at hhead; exact absurd hhead (by simp)
            | cons a t => simp
          have hle := uniquePodsB_le_one s.endpoints hU env.nsName env.pod
          unfold listByPod at hge ⊢
          omega
      · rw [if_neg hcid] at h1
        obtain ⟨hs, rfl⟩ := freshAdd_publish alloc annots env _ s1 r h1
        exact cmdAdd_after_publish alloc annots env _ r hs hval
    | none =>
      simp only [cmdAdd, hval, hhead] at h1
      obtain ⟨hs, rfl⟩ := freshAdd_publish alloc annots env s s1 r h1
      exact cmdAdd_after_publish alloc annots env s r hs hval

def c2Env : CmdEnv :=
  { netName := "net1".toList, nsName := "test".toList, pod := "p2".toList,
    containerID := "C2".toList, node := "n".toList, ifName := "eth0".toList }

def c2Alloc : GoStr → GoStr → List GoStr := fun _ _ => ["10.0.0.7/32".toList]

/-- Witness for `cmdAdd_idempotent`: a concrete first ADD into an empty
datastore, repeated. -/
theorem cmdAdd_idempotent_witness :
    cmdAdd c2Alloc none c2Env (cmdAdd c2Alloc none c2Env {}).2 =
      (.ok ["10.0.0.7/32".toList], (cmdAdd c2Alloc none c2Env {}).2) ∧
    (listByPod (cmdAdd c2Alloc none c2Env {}).2 c2Env.nsName c2Env.pod).length = 1 :=
  cmdAdd_idempotent c2Alloc none c2Env {} (cmdAdd c2Alloc none c2Env {}).2
    ["10.0.0.7/32".toList] (by decide) (by decide)

def c3Env : CmdEnv :=
  { netName := "net9".toList, nsName := "test".toList, pod := "p3".toList,
    containerID := "C".toList, node := "n".toList, ifName := "eth0".toList }

/-- Witness for `cmdAdd_multi_noipam_fails`: the annotation value
`["10.0.0.1", "10.0.0.2"]` of the cited test. -/
theorem cmdAdd_multi_noipam_fails_witness :
    (∃ e, (cmdAdd (fun _ _ => []) (some [[10, 0, 0, 1], [10, 0, 0, 2]]) c3Env
        { endpoints := [], handles := [] }).1 = .error e) ∧
    listByPod (cmdAdd (fun _ _ => []) (some [[10, 0, 0, 1], [10, 0, 0, 2]]) c3Env
        { endpoints := [], handles := [] }).2 c3Env.nsName c3Env.pod = [] :=
  cmdAdd_multi_noipam_fails (fun _ _ => []) c3Env { endpoints := [], handles := [] }
    [[10, 0, 0, 1], [10, 0, 0, 2]] (by decide) (by decide)


/-- The nodename resolution order as claim C4 literally states it: NetConf
nodename, then the contents of `/var/lib/calico/nodename` whenever the
file exists, then NetConf hostname, then the OS hostname. -/
def claimNodename (conf : NetConf) (fileRead : Option GoStr) (osHostname : GoStr) : GoStr :=
  if conf.nodename ≠ [] then conf.nodename
  else
    match fileRead with
    | some c => c
    | none => if conf.hostname ≠ [] then conf.hostname else osHostname

/-- **C4 (counterexample).** The claimed order is wrong when the nodename
file exists but is empty: `DetermineNodename` ignores the empty contents
and falls through to `hostname` ("H"), while the claimed order would
return the file's (empty) contents. -/
theorem determineNodename_claim_cex :
    (DetermineNodename { hostname := "H".toList } (some []) ("os".toList)).1 ≠
      claimNodename { hostname := "H".toList } (some []) ("os".toList) := by
  decide

/-- The resolution order with the file step amended to "the file exists
and its contents are non-empty". -/
def claimNodenameAmended (conf : NetConf) (fileRead : Option GoStr)
    (osHostname : GoStr) : GoStr :=
  if conf.nodename ≠ [] then conf.nodename
  else if fileRead.getD [] ≠ [] then fileRead.getD []
  else if conf.hostname ≠ [] then conf.hostname
  else osHostname

/-- **C4 (amended).** `DetermineNodename` resolves the node name with
precedence: NetConf nodename, then the contents of the nodename file when
the file exists *and is non-empty*, then NetConf hostname, then the OS
hostname; the deprecation warning is logged exactly when `hostname` is
set.  In particular, hostname "H" with nodename "N" yields "N", and
hostname "H" alone with no nodename file yields "H". -/
theorem determineNodename_precedence (conf : NetConf) (fileRead : Option GoStr)
    (os : GoStr) :
    (DetermineNodename conf fileRead os).1 = claimNodenameAmended conf fileRead os ∧
    ((DetermineNodename conf fileRead os).2 = true ↔ conf.hostname ≠ []) ∧
    (DetermineNodename { hostname := "H".toList, nodename := "N".toList } none
      ("os".toList)).1 = "N".toList ∧
    (DetermineNodename { hostname := "H".toList, nodename := "N".toList } none
      ("os".toList)).2 = true ∧
    (DetermineNodename { hostname := "H".toList } none ("os".toList)).1 = "H".toList := by
  refine ⟨?_, ?_, by decide, by decide, by decide⟩
  · unfold DetermineNodename claimNodenameAmended nodenameFromFile
    by_cases h1 : conf.nodename = [] <;> by_cases h2 : fileRead.getD [] = [] <;>
      by_cases h3 : conf.hostname = [] <;> simp [h1, h2, h3]
  · unfold DetermineNodename
    by_cases h3 : conf.hostname = [] <;> simp [h3]

/-- **C5.** `CleanUpIPAM` passes a stdin to the IPAM delegate's DEL whose
`ipam.subnet` is rewritten to `0.0.0.0/0` exactly when the configured IPAM
type is `host-local` (exact match) and its subnet equals `usePodCidr`
under case folding (`strings.EqualFold`); for every other IPAM type or
subnet the delegated stdin is the original one, and in all cases every
other field of the stdin is unchanged. -/
theorem cleanUpIPAM_subnet_rewrite (conf : NetConf) (stdin : StdinData) :
    ((conf.ipamType = "host-local".toList ∧
        goEqualFold conf.ipamSubnet ("usePodCidr".toList) = true) →
      CleanUpIPAMStdin conf stdin = { stdin with ipamSubnet := "0.0.0.0/0".toList }) ∧
    (¬(conf.ipamType = "host-local".toList ∧
        goEqualFold conf.ipamSubnet ("usePodCidr".toList) = true) →
      CleanUpIPAMStdin conf stdin = stdin) ∧
    (CleanUpIPAMStdin conf stdin).ipamRest = stdin.ipamRest ∧
    (CleanUpIPAMStdin conf stdin).topRest = stdin.topRest := by
  by_cases h : conf.ipamType = "host-local".toList ∧
      goEqualFold conf.ipamSubnet ("usePodCidr".toList) = true
  · have he : CleanUpIPAMStdin conf stdin = { stdin with ipamSubnet := "0.0.0.0/0".toList } := by
      unfold CleanUpIPAMStdin
      rw [if_pos h]
    exact ⟨fun _ => he, fun hc => absurd h hc, by rw [he], by rw [he]⟩
  · have he : CleanUpIPAMStdin conf stdin = stdin := by
      unfold CleanUpIPAMStdin
      rw [if_neg h]
    exact ⟨fun hc => absurd hc h, fun _ => he, by rw [he], by rw [he]⟩

/-- Witness for `cleanUpIPAM_subnet_rewrite`: `host-local` with subnet
`USEPODCIDR` (case-folded match) has its stdin rewritten. -/
theorem cleanUpIPAM_subnet_rewrite_witness :
    CleanUpIPAMStdin
        { ipamType := "host-local".toList, ipamSubnet := "USEPODCIDR".toList }
        { ipamSubnet := "USEPODCIDR".toList,
          ipamRest := [("type".toList, "host-local".toList)] } =
      { ipamSubnet := "0.0.0.0/0".toList,
        ipamRest := [("type".toList, "host-local".toList)] } :=
  (cleanUpIPAM_subnet_rewrite
      { ipamType := "host-local".toList, ipamSubnet := "USEPODCIDR".toList }
      { ipamSubnet := "USEPODCIDR".toList,
        ipamRest := [("type".toList, "host-local".toList)] }).1 (by decide)


/-- The character class `[A-Za-z0-9_.-]` in the order claim C8 states it. -/
def claimNameCh (c : Char) : Prop :=
  ('A' ≤ c ∧ c ≤ 'Z') ∨ ('a' ≤ c ∧ c ≤ 'z') ∨ ('0' ≤ c ∧ c ≤ '9') ∨
  c = '_' ∨ c = '.' ∨ c = '-'

theorem isNameCh_iff (c : Char) : isNameCh c = true ↔ claimNameCh c := by
  unfold isNameCh claimNameCh
  rw [decide_eq_true_eq]
  tauto

instance claimNameChDec (c : Char) : Decidable (claimNameCh c) :=
  decidable_of_iff _ (isNameCh_iff c)

/-- **C8.** `ValidateNetworkName` accepts a network name iff it is a
non-empty string of characters from `[A-Za-z0-9_.-]`, and `CreateClient`
returns an error (so no client) for every NetConf whose name fails this
check. -/
theorem validateNetworkName_spec (name : GoStr) (conf : NetConf)
    (mk : Except GoStr Nat) :
    (ValidateNetworkName name = none ↔ (name ≠ [] ∧ ∀ c ∈ name, claimNameCh c)) ∧
    (¬(conf.name ≠ [] ∧ ∀ c ∈ conf.name, claimNameCh c) →
      ∃ e, CreateClient conf mk = .error e) := by
  have key : ∀ nm : GoStr,
      ValidateNetworkName nm = none ↔ (nm ≠ [] ∧ ∀ c ∈ nm, claimNameCh c) := by
    intro nm
    unfold ValidateNetworkName
    by_cases hcond : nm.isEmpty = true ∨ ¬nm.all isNameCh = true
    · rw [if_pos hcond]
      constructor
      · intro h
        exact absurd h (by simp)
      · rintro ⟨h1, h2⟩
        exfalso
        rcases hcond with h | h
        · exact h1 (List.isEmpty_iff.mp h)
        · apply h
          rw [List.all_eq_true]
          intro c hc
          exact (isNameCh_iff c).mpr (h2 c hc)
    · rw [if_neg hcond]
      push_neg at hcond
      obtain ⟨h1, h2⟩ := hcond
      constructor
      · intro _
        exact ⟨fun hnil => h1 (by simp [hnil]),
               fun c hc => (isNameCh_iff c).mp (List.all_eq_true.mp h2 c hc)⟩
      · intro _
        rfl
  refine ⟨key name, fun hbad => ?_⟩
  cases hv : ValidateNetworkName conf.name with
  | none => exact absurd ((key conf.name).mp hv) hbad
  | some e =>
    refine ⟨e, ?_⟩
    unfold CreateClient
    rw [hv]

/-- Witness for `validateNetworkName_spec`: the name `"bad name!"`
contains characters outside the class, so `CreateClient` errors. -/
theorem validateNetworkName_spec_witness :
    ∃ e, CreateClient { name := "bad name!".toList } (.ok 0) = .error e :=
  (validateNetworkName_spec ("x".toList) { name := "bad name!".toList } (.ok 0)).2
    (by decide)

/-- **C7.** `PopulateEndpointNets` fails exactly when the Result has no
IPs, leaving the endpoint's IPNetworks unchanged in that case; otherwise
it appends to IPNetworks one CIDR string per returned IP — with the mask
forced to /32 for version-"4" entries and /128 for all others — so that
IPNetworks is non-empty after a successful call. -/
theorem populateEndpointNets_spec (wep : WorkloadEndpoint) (r : CNIResult) :
    ((PopulateEndpointNets wep r).1.isSome ↔ r.ips = []) ∧
    (r.ips = [] → (PopulateEndpointNets wep r).2.1 = wep) ∧
    (r.ips ≠ [] →
      (PopulateEndpointNets wep r).2.1.ipNetworks =
        wep.ipNetworks ++ r.ips.map (fun c =>
          GoNet.ipNetStr c.ip (if c.version = "4".toList then GoNet.cidrMask 32 32
                               else GoNet.cidrMask 128 128)) ∧
      (PopulateEndpointNets wep r).2.1.ipNetworks ≠ []) := by
  by_cases h : r.ips = []
  · have hie : r.ips.isEmpty = true := by simp [h]
    unfold PopulateEndpointNets
    rw [if_pos hie]
    exact ⟨by simp [h], fun _ => rfl, fun hne => absurd h hne⟩
  · have hie : ¬(r.ips.isEmpty = true) := by simp [h]
    unfold PopulateEndpointNets
    rw [if_neg hie]
    refine ⟨by simp [h], fun he => absurd he h, fun _ => ⟨?_, ?_⟩⟩
    · simp only [List.map_map]
      rfl
    · simp [h]

def c7Res : CNIResult :=
  { ips := [{ version := "4".toList, ip := [10, 0, 0, 1], mask := [] }] }

/-- Witness for `populateEndpointNets_spec`: one IPv4 entry is appended
with a forced /32 mask. -/
theorem populateEndpointNets_spec_witness :
    (PopulateEndpointNets {} c7Res).2.1.ipNetworks =
      ({} : WorkloadEndpoint).ipNetworks ++ c7Res.ips.map (fun c =>
        GoNet.ipNetStr c.ip (if c.version = "4".toList then GoNet.cidrMask 32 32
                             else GoNet.cidrMask 128 128)) ∧
    (PopulateEndpointNets {} c7Res).2.1.ipNetworks ≠ [] :=
  (populateEndpointNets_spec {} c7Res).2.2 (by decide)


/-- **C6.** Whenever `GetIdentifiers` returns identifiers, it returns
Orchestrator "k8s" with Pod = `K8S_POD_NAME` and Namespace =
`K8S_POD_NAMESPACE` iff both of those parsed args are non-empty;
otherwise Orchestrator "cni" with empty Pod and Namespace "default",
unless the test-only `CNI_TEST_NAMESPACE` arg (when its own arg load
succeeds) overrides the namespace.  In both cases ContainerID equals
`CNI_CONTAINERID`, Node equals the resolved nodename, and Endpoint equals
`CNI_IFNAME`. -/
theorem getIdentifiers_orchestrator (a : CmdArgs) (nodename : GoStr)
    (ids : WEPIdentifiers) (h : GetIdentifiers a nodename = some ids) :
    ids.containerID = a.containerID ∧ ids.node = nodename ∧
    ids.endpoint = a.ifName ∧
    ∃ st, loadArgs k8sArgsFields a.args = some st ∧
      ((ids.orchestrator = "k8s".toList) ↔
        (getVal st.vals ("K8S_POD_NAMESPACE".toList) ≠ [] ∧
         getVal st.vals ("K8S_POD_NAME".toList) ≠ [])) ∧
      (ids.orchestrator = "k8s".toList →
        ids.pod = getVal st.vals ("K8S_POD_NAME".toList) ∧
        ids.nsName = getVal st.vals ("K8S_POD_NAMESPACE".toList)) ∧
      (¬ids.orchestrator = "k8s".toList →
        ids.orchestrator = "cni".toList ∧ ids.pod = [] ∧
        ids.nsName =
          (match loadArgs cniTestArgsFields a.args with
           | none => "default".toList
           | some st2 =>
             if getVal st2.vals ("CNI_TEST_NAMESPACE".toList) ≠ []
             then getVal st2.vals ("CNI_TEST_NAMESPACE".toList)
             else "default".toList)) := by
  have horch : ∀ base : WEPIdentifiers, base.orchestrator = "cni".toList →
      ¬base.orchestrator = "k8s".toList := by
    intro base hb
    rw [hb]
    decide
  cases hld : loadArgs k8sArgsFields a.args with
  | none =>
    simp only [GetIdentifiers, hld] at h
    exact absurd h (by simp)
  | some st =>
    simp only [GetIdentifiers, hld] at h
    by_cases hk : ¬(getVal st.vals ("K8S_POD_NAMESPACE".toList)).isEmpty ∧
        ¬(getVal st.vals ("K8S_POD_NAME".toList)).isEmpty
    · rw [if_pos hk] at h
      injection h with h2
      subst h2
      refine ⟨rfl, rfl, rfl, st, rfl, ?_, fun _ => ⟨rfl, rfl⟩, fun hc => absurd rfl hc⟩
      constructor
      · intro _
        exact ⟨by simpa using hk.1, by simpa using hk.2⟩
      · intro _
        rfl
    · rw [if_neg hk] at h
      cases hld2 : loadArgs cniTestArgsFields a.args with
      | none =>
        rw [hld2] at h
        injection h with h2
        subst h2
        refine ⟨rfl, rfl, rfl, st, rfl, ?_, fun hc => absurd hc (horch _ rfl),
                fun _ => ⟨rfl, rfl, rfl⟩⟩
        constructor
        · intro hc
          exact absurd hc (horch _ rfl)
        · rintro ⟨hc1, hc2⟩
          exact absurd ⟨by simpa using hc1, by simpa using hc2⟩ hk
      | some st2 =>
        rw [hld2] at h
        have hred : (if ¬(getVal st2.vals ("CNI_TEST_NAMESPACE".toList)).isEmpty then
              some ({ nsName := getVal st2.vals ("CNI_TEST_NAMESPACE".toList),
                      containerID := a.containerID, node := nodename,
                      orchestrator := "cni".toList, endpoint := a.ifName,
                      pod := [] } : WEPIdentifiers)
            else
              some { nsName := "default".toList, containerID := a.containerID,
                     node := nodename, orchestrator := "cni".toList,
                     endpoint := a.ifName, pod := [] }) = some ids := h
        clear h
        by_cases ht : ¬(getVal st2.vals ("CNI_TEST_NAMESPACE".toList)).isEmpty
        · rw [if_pos ht] at hred
          injection hred with h2
          subst h2
          refine ⟨rfl, rfl, rfl, st, rfl, ?_, fun hc => absurd hc (horch _ rfl),
                  fun _ => ⟨rfl, rfl, ?_⟩⟩
          · constructor
            · intro hc
              exact absurd hc (horch _ rfl)
            · rintro ⟨hc1, hc2⟩
              exact absurd ⟨by simpa using hc1, by simpa using hc2⟩ hk
          · show getVal st2.vals ("CNI_TEST_NAMESPACE".toList) =
              if getVal st2.vals ("CNI_TEST_NAMESPACE".toList) ≠ []
              then getVal st2.vals ("CNI_TEST_NAMESPACE".toList) else "default".toList
            rw [if_pos (by simpa using ht)]
        · rw [if_neg ht] at hred
          injection hred with h2
          subst h2
          refine ⟨rfl, rfl, rfl, st, rfl, ?_, fun hc => absurd hc (horch _ rfl),
                  fun _ => ⟨rfl, rfl, ?_⟩⟩
          · constructor
            · intro hc
              exact absurd hc (horch _ rfl)
            · rintro ⟨hc1, hc2⟩
              exact absurd ⟨by simpa using hc1, by simpa using hc2⟩ hk
          · show ("default".toList : GoStr) =
              if getVal st2.vals ("CNI_TEST_NAMESPACE".toList) ≠ []
              then getVal st2.vals ("CNI_TEST_NAMESPACE".toList) else "default".toList
            rw [if_neg (by simpa using ht)]

def c6Args : CmdArgs :=
  { containerID := "abcd".toList, ifName := "eth0".toList,
    args := "IgnoreUnknown=1;K8S_POD_NAMESPACE=test;K8S_POD_NAME=p1".toList }

def c6Ids : WEPIdentifiers :=
  { nsName := "test".toList, containerID := "abcd".toList, node := "node1".toList,
    orchestrator := "k8s".toList, endpoint := "eth0".toList, pod := "p1".toList }

/-- Witness for `getIdentifiers_orchestrator`: a concrete k8s argument
string. -/
theorem getIdentifiers_orchestrator_witness :
    c6Ids.containerID = c6Args.containerID ∧ c6Ids.node = "node1".toList ∧
    c6Ids.endpoint = c6Args.ifName ∧
    ∃ st, loadArgs k8sArgsFields c6Args.args = some st ∧
      ((c6Ids.orchestrator = "k8s".toList) ↔
        (getVal st.vals ("K8S_POD_NAMESPACE".toList) ≠ [] ∧
         getVal st.vals ("K8S_POD_NAME".toList) ≠ [])) ∧
      (c6Ids.orchestrator = "k8s".toList →
        c6Ids.pod = getVal st.vals ("K8S_POD_NAME".toList) ∧
        c6Ids.nsName = getVal st.vals ("K8S_POD_NAMESPACE".toList)) ∧
      (¬c6Ids.orchestrator = "k8s".toList →
        c6Ids.orchestrator = "cni".toList ∧ c6Ids.pod = [] ∧
        c6Ids.nsName =
          (match loadArgs cniTestArgsFields c6Args.args with
           | none => "default".toList
           | some st2 =>
             if getVal st2.vals ("CNI_TEST_NAMESPACE".toList) ≠ []
             then getVal st2.vals ("CNI_TEST_NAMESPACE".toList)
             else "default".toList)) :=
  getIdentifiers_orchestrator c6Args ("node1".toList) c6Ids (by decide)


/-- The adjacency property claim C10 asserts of sanitized output: no two
adjacent `[.-]` characters of which one is a `'.'` (i.e. every `[.-]` run
containing a dot has length one). -/
def noDotPair (a b : Char) : Prop :=
  ¬(isDotDash a = true ∧ isDotDash b = true ∧ (a = '.' ∨ b = '.'))

theorem isDotDash_cases (c : Char) (h : isDotDash c = true) : c = '.' ∨ c = '-' := by
  unfold isDotDash at h
  simp only [Bool.or_eq_true, beq_iff_eq] at h
  exact h

theorem replInv_chars : ∀ (l : List Char) (b : Bool) (c : Char),
    c ∈ replInv l b → isLabelCh c = true := by
  intro l
  induction l with
  | nil =>
    intro b c hc
    simp [replInv] at hc
  | cons a rest ih =>
    intro b c hc
    unfold replInv at hc
    by_cases ha : isLabelCh a = true
    · rw [if_pos ha] at hc
      rcases List.mem_cons.mp hc with rfl | hc
      · exact ha
      · exact ih false c hc
    · rw [if_neg ha] at hc
      by_cases hb : b = true
      · rw [if_pos hb] at hc
        exact ih true c hc
      · rw [if_neg hb] at hc
        rcases List.mem_cons.mp hc with rfl | hc
        · decide
        · exact ih true c hc

theorem replInv_id : ∀ l : List Char, (∀ c ∈ l, isLabelCh c = true) →
    replInv l false = l := by
  intro l
  induction l with
  | nil => intro _; rfl
  | cons a rest ih =>
    intro h
    unfold replInv
    rw [if_pos (h a (List.mem_cons_self a rest))]
    rw [ih (fun c hc => h c (List.mem_cons_of_mem a hc))]

theorem collapseAux_chars : ∀ (fuel : Nat) (l : List Char) (c : Char),
    c ∈ collapseAux fuel l → c ∈ l ∨ c = '.' := by
  intro fuel
  induction fuel with
  | zero =>
    intro l c hc
    simp [collapseAux] at hc
  | succ fuel ih =>
    intro l c hc
    cases l with
    | nil => simp [collapseAux] at hc
    | cons a rest =>
      unfold collapseAux at hc
      by_cases ha : isDotDash a = true
      · rw [if_pos ha] at hc
        rcases List.mem_append.mp hc with hc | hc
        · by_cases hdot : (a :: rest.takeWhile isDotDash).contains '.' = true
          · rw [if_pos hdot] at hc
            exact Or.inr (by simpa using hc)
          · rw [if_neg hdot] at hc
            rcases List.mem_cons.mp hc with rfl | hc
            · exact Or.inl (List.mem_cons_self _ _)
            · exact Or.inl (List.mem_cons_of_mem a ((List.takeWhile_sublist _).mem hc))
        · rcases ih _ c hc with hc | hc
          · exact Or.inl (List.mem_cons_of_mem a ((List.dropWhile_suffix _).sublist.mem hc))
          · exact Or.inr hc
      · rw [if_neg ha] at hc
        rcases List.mem_cons.mp hc with rfl | hc
        · exact Or.inl (List.mem_cons_self _ _)
        · rcases ih rest c hc with hc | hc
          · exact Or.inl (List.mem_cons_of_mem a hc)
          · exact Or.inr hc

theorem chain_noDotPair_of_all_dash : ∀ l : List Char, (∀ c ∈ l, c = '-') →
    List.Chain' noDotPair l := by
  intro l
  induction l with
  | nil => intro _; exact List.chain'_nil
  | cons a rest ih =>
    intro h
    rw [List.chain'_cons']
    refine ⟨?_, ih (fun c hc => h c (List.mem_cons_of_mem a hc))⟩
    intro y hy
    have ha : a = '-' := h a (List.mem_cons_self a rest)
    have hyd : y = '-' := by
      cases rest with
      | nil => simp at hy
      | cons b t =>
        have hb : b = y := by simpa using hy
        rw [← hb]
        exact h b (List.mem_cons_of_mem a (List.mem_cons_self b t))
    rw [ha, hyd]
    intro hcon
    rcases hcon.2.2 with h' | h' <;> exact absurd h' (by decide)

theorem dd_run_no_dot : ∀ (rest : List Char) (a : Char),
    List.Chain' noDotPair (a :: rest) → isDotDash a = true → a ≠ '.' →
    '.' ∉ rest.takeWhile isDotDash := by
  intro rest
  induction rest with
  | nil =>
    intro a _ _ _
    simp
  | cons b t ih =>
    intro a h ha hane
    by_cases hb : isDotDash b = true
    · rw [List.takeWhile_cons_of_pos hb]
      have hR : noDotPair a b := (List.chain'_cons'.mp h).1 b (by simp)
      have hbne : b ≠ '.' := fun hbeq => hR ⟨ha, hb, Or.inr hbeq⟩
      intro hmem
      rcases List.mem_cons.mp hmem with hmm | hmem2
      · exact hbne hmm.symm
      · exact ih b (List.chain'_cons'.mp h).2 hb hbne hmem2
    · rw [List.takeWhile_cons_of_neg hb]
      simp


theorem collapseAux_chain : ∀ (fuel : Nat) (l : List Char),
    List.Chain' noDotPair (collapseAux fuel l) ∧
    (∀ y, (collapseAux fuel l).head? = some y → isDotDash y = true →
      ∃ c, l.head? = some c ∧ isDotDash c = true) := by
  intro fuel
  induction fuel with
  | zero =>
    intro l
    refine ⟨by simp [collapseAux], ?_⟩
    intro y hy
    simp [collapseAux] at hy
  | succ fuel ih =>
    intro l
    cases l with
    | nil =>
      refine ⟨by simp [collapseAux], ?_⟩
      intro y hy
      simp [collapseAux] at hy
    | cons a rest =>
      by_cases ha : isDotDash a = true
      · have heq : collapseAux (fuel + 1) (a :: rest) =
            (if (a :: rest.takeWhile isDotDash).contains '.' = true then ['.']
             else a :: rest.takeWhile isDotDash) ++
              collapseAux fuel (rest.dropWhile isDotDash) := by
          simp only [collapseAux, if_pos ha]
        rw [heq]
        constructor
        · rw [List.chain'_append]
          refine ⟨?_, (ih _).1, ?_⟩
          · by_cases hdot : (a :: rest.takeWhile isDotDash).contains '.' = true
            · rw [if_pos hdot]
              exact List.chain'_singleton _
            · rw [if_neg hdot]
              apply chain_noDotPair_of_all_dash
              intro c hc
              have hcd : isDotDash c = true := by
                rcases List.mem_cons.mp hc with rfl | hc2
                · exact ha
                · exact List.mem_takeWhile_imp hc2
              rcases isDotDash_cases c hcd with h' | h'
              · exfalso
                apply hdot
                rw [h'] at hc
                simpa using hc
              · exact h'
          · intro x hx y hy hcon
            obtain ⟨c, hc, hcd⟩ := (ih (rest.dropWhile isDotDash)).2 y hy hcon.2.1
            have hnd := List.head?_dropWhile_not isDotDash rest
            rw [hc] at hnd
            exact absurd hcd (by simp [hnd])
        · intro y hy hdd
          by_cases hdot : (a :: rest.takeWhile isDotDash).contains '.' = true
          · rw [if_pos hdot, List.singleton_append, List.head?_cons] at hy
            exact ⟨a, rfl, ha⟩
          · rw [if_neg hdot, List.cons_append, List.head?_cons] at hy
            exact ⟨a, rfl, ha⟩
      · have heq : collapseAux (fuel + 1) (a :: rest) = a :: collapseAux fuel rest := by
          simp only [collapseAux, if_neg ha]
        rw [heq]
        constructor
        · rw [List.chain'_cons']
          refine ⟨?_, (ih rest).1⟩
          intro y _ hcon
          exact absurd hcon.1 ha
        · intro y hy hdd
          have hya : y = a := by simpa using hy.symm
          rw [hya] at hdd
          exact absurd hdd ha

theorem collapseAux_id : ∀ (fuel : Nat) (l : List Char), l.length ≤ fuel →
    List.Chain' noDotPair l → collapseAux fuel l = l := by
  intro fuel
  induction fuel with
  | zero =>
    intro l hl _
    rw [Nat.le_zero] at hl
    rw [List.length_eq_zero.mp hl]
    rfl
  | succ fuel ih =>
    intro l hl hchain
    cases l with
    | nil => rfl
    | cons a rest =>
      simp only [List.length_cons, Nat.add_le_add_iff_right] at hl
      by_cases ha : isDotDash a = true
      · rcases isDotDash_cases a ha with rfl | rfl
        · -- a = '.': the chain property forces the run to stop here
          have htw : rest.takeWhile isDotDash = [] := by
            cases rest with
            | nil => rfl
            | cons b t =>
              have hR : noDotPair '.' b := (List.chain'_cons'.mp hchain).1 b (by simp)
              have hb : ¬isDotDash b = true := by
                intro hbd
                exact hR ⟨by decide, hbd, Or.inl rfl⟩
              exact List.takeWhile_cons_of_neg hb
          have hdw : rest.dropWhile isDotDash = rest := by
            cases rest with
            | nil => rfl
            | cons b t =>
              have hR : noDotPair '.' b := (List.chain'_cons'.mp hchain).1 b (by simp)
              have hb : ¬isDotDash b = true := by
                intro hbd
                exact hR ⟨by decide, hbd, Or.inl rfl⟩
              exact List.dropWhile_cons_of_neg hb
          have heq : collapseAux (fuel + 1) ('.' :: rest) =
              (if ('.' :: rest.takeWhile isDotDash).contains '.' = true then ['.']
               else '.' :: rest.takeWhile isDotDash) ++
                collapseAux fuel (rest.dropWhile isDotDash) := by
            simp only [collapseAux, if_pos ha]
          rw [heq, htw, hdw, if_pos (by decide), List.singleton_append,
              ih rest hl (List.chain'_cons'.mp hchain).2]
        · -- a = '-': the run contains no dot and is emitted unchanged
          have hnodot : '.' ∉ rest.takeWhile isDotDash :=
            dd_run_no_dot rest '-' hchain ha (by decide)
          have hdot : ¬('-' :: rest.takeWhile isDotDash).contains '.' = true := by
            intro hcon
            have : '.' ∈ '-' :: rest.takeWhile isDotDash := by simpa using hcon
            rcases List.mem_cons.mp this with h' | h'
            · exact absurd h'.symm (by decide)
            · exact hnodot h'
          have heq : collapseAux (fuel + 1) ('-' :: rest) =
              (if ('-' :: rest.takeWhile isDotDash).contains '.' = true then ['.']
               else '-' :: rest.takeWhile isDotDash) ++
                collapseAux fuel (rest.dropWhile isDotDash) := by
            simp only [collapseAux, if_pos ha]
          rw [heq, if_neg hdot]
          have hchain' : List.Chain' noDotPair (rest.dropWhile isDotDash) :=
            ((List.chain'_cons'.mp hchain).2).suffix (List.dropWhile_suffix _)
          have hlen : (rest.dropWhile isDotDash).length ≤ fuel :=
            le_trans (List.Sublist.length_le (List.dropWhile_suffix _).sublist) hl
          rw [ih _ hlen hchain', List.cons_append, List.takeWhile_append_dropWhile]
      · have heq : collapseAux (fuel + 1) (a :: rest) = a :: collapseAux fuel rest := by
          simp only [collapseAux, if_neg ha]
        rw [heq, ih rest hl (List.chain'_cons'.mp hchain).2]


theorem slashMap_id (l : List Char) (h : ∀ c ∈ l, isLabelCh c = true) :
    l.map (fun c => if c = '/' then '.' else c) = l := by
  induction l with
  | nil => rfl
  | cons a rest ih =>
    simp only [List.map_cons]
    have ha : a ≠ '/' := by
      intro hc
      have h2 := h a (List.mem_cons_self a rest)
      rw [hc] at h2
      exact absurd h2 (by decide)
    rw [if_neg ha, ih (fun c hc => h c (List.mem_cons_of_mem a hc))]

theorem trimDD_eq (l : List Char) :
    trimDD l = (l.dropWhile isDotDash).rdropWhile isDotDash := rfl

theorem trimDD_part (l : List Char) : (trimDD l).IsInfix l := by
  rw [trimDD_eq]
  obtain ⟨u, hu⟩ := List.rdropWhile_prefix isDotDash (l.dropWhile isDotDash)
  obtain ⟨v, hv⟩ := List.dropWhile_suffix (l := l) isDotDash
  exact ⟨v, u, by rw [List.append_assoc, hu, hv]⟩

theorem trimDD_head (l : List Char) (y : Char) (h : (trimDD l).head? = some y) :
    isDotDash y = false := by
  rw [trimDD_eq] at h
  obtain ⟨u, hu⟩ := List.rdropWhile_prefix isDotDash (l.dropWhile isDotDash)
  have hd : (l.dropWhile isDotDash).head? = some y := by
    rw [← hu]
    cases hcase : (l.dropWhile isDotDash).rdropWhile isDotDash with
    | nil =>
      rw [hcase] at h
      exact absurd h (by simp)
    | cons b t =>
      rw [hcase] at h
      have hby : b = y := by simpa using h
      rw [List.cons_append, List.head?_cons, hby]
  have hnd := List.head?_dropWhile_not isDotDash l
  rw [hd] at hnd
  exact hnd

theorem trimDD_last (l : List Char) (y : Char) (h : (trimDD l).getLast? = some y) :
    isDotDash y = false := by
  rw [trimDD_eq] at h
  have hne : (l.dropWhile isDotDash).rdropWhile isDotDash ≠ [] := by
    intro hnil
    rw [hnil] at h
    exact absurd h (by simp)
  have hlast := List.rdropWhile_last_not isDotDash (l.dropWhile isDotDash) hne
  have hy : ((l.dropWhile isDotDash).rdropWhile isDotDash).getLast hne = y := by
    have := List.getLast?_eq_getLast ((l.dropWhile isDotDash).rdropWhile isDotDash) hne
    rw [this] at h
    simpa using h
  rw [hy] at hlast
  simpa using hlast

theorem dropWhile_eq_self_of_head (p : Char → Bool) (l : List Char)
    (h : ∀ y, l.head? = some y → p y = false) : l.dropWhile p = l := by
  cases l with
  | nil => rfl
  | cons b t => exact List.dropWhile_cons_of_neg (by simp [h b rfl])

theorem rdropWhile_eq_self_of_last (p : Char → Bool) (l : List Char)
    (h : ∀ y, l.getLast? = some y → p y = false) : l.rdropWhile p = l := by
  apply List.rdropWhile_eq_self_iff.mpr
  intro hl
  have h2 := h (l.getLast hl) (List.getLast?_eq_getLast l hl)
  simp [h2]

theorem sanitize_chars (s : GoStr) :
    ∀ c ∈ SanitizeMesosLabel s, isLabelCh c = true := by
  intro c hc
  unfold SanitizeMesosLabel collapseDots at hc
  have hc2 := (trimDD_part _).sublist.mem hc
  rcases collapseAux_chars _ _ c hc2 with hc3 | rfl
  · exact replInv_chars _ false c hc3
  · decide

theorem sanitize_chain (s : GoStr) :
    List.Chain' noDotPair (SanitizeMesosLabel s) := by
  unfold SanitizeMesosLabel collapseDots
  exact List.Chain'.infix (collapseAux_chain _ _).1 (trimDD_part _)

theorem sanitize_head (s : GoStr) :
    ∀ c, (SanitizeMesosLabel s).head? = some c → isDotDash c = false := by
  intro c hc
  exact trimDD_head _ c hc

theorem sanitize_last (s : GoStr) :
    ∀ c, (SanitizeMesosLabel s).getLast? = some c → isDotDash c = false := by
  intro c hc
  exact trimDD_last _ c hc

theorem sanitize_id (l : List Char)
    (hchars : ∀ c ∈ l, isLabelCh c = true)
    (hchain : List.Chain' noDotPair l)
    (hhead : ∀ y, l.head? = some y → isDotDash y = false)
    (hlast : ∀ y, l.getLast? = some y → isDotDash y = false) :
    SanitizeMesosLabel l = l := by
  unfold SanitizeMesosLabel collapseDots
  rw [slashMap_id l hchars, replInv_id l hchars,
      collapseAux_id l.length l le_rfl hchain, trimDD_eq,
      dropWhile_eq_self_of_head _ _ hhead, rdropWhile_eq_self_of_last _ _ hlast]

theorem isLabelCh_iff (c : Char) : isLabelCh c = true ↔ claimNameCh c := by
  unfold isLabelCh claimNameCh
  rw [decide_eq_true_eq]
  tauto

theorem isDotDash_false_iff (c : Char) :
    isDotDash c = false ↔ (c ≠ '.' ∧ c ≠ '-') := by
  unfold isDotDash
  constructor
  · intro h
    simp only [Bool.or_eq_false_iff, beq_eq_false_iff_ne, ne_eq] at h
    exact h
  · intro h
    simp only [Bool.or_eq_false_iff, beq_eq_false_iff_ne, ne_eq]
    exact h

/-- **C10.** `SanitizeMesosLabel` is idempotent, its output contains only
characters from `[A-Za-z0-9_.-]`, never begins or ends with `'.'` or
`'-'`, and contains no adjacent pair of `[.-]` characters of which one is
a `'.'` (i.e. no `[.-]` run longer than one that includes a dot). -/
theorem sanitizeMesosLabel_spec (s : GoStr) :
    SanitizeMesosLabel (SanitizeMesosLabel s) = SanitizeMesosLabel s ∧
    (∀ c ∈ SanitizeMesosLabel s, claimNameCh c) ∧
    (∀ c, (SanitizeMesosLabel s).head? = some c → c ≠ '.' ∧ c ≠ '-') ∧
    (∀ c, (SanitizeMesosLabel s).getLast? = some c → c ≠ '.' ∧ c ≠ '-') ∧
    List.Chain' noDotPair (SanitizeMesosLabel s) := by
  refine ⟨sanitize_id _ (sanitize_chars s) (sanitize_chain s) (sanitize_head s)
      (sanitize_last s), ?_, ?_, ?_, sanitize_chain s⟩
  · intro c hc
    exact (isLabelCh_iff c).mp (sanitize_chars s c hc)
  · intro c hc
    exact (isDotDash_false_iff c).mp (sanitize_head s c hc)
  · intro c hc
    exact (isDotDash_false_iff c).mp (sanitize_last s c hc)

/-- Witness for `sanitizeMesosLabel_spec`: idempotence at a concrete
label. -/
theorem sanitizeMesosLabel_spec_witness :
    SanitizeMesosLabel (SanitizeMesosLabel ("web/frontend#1..-x-".toList)) =
      SanitizeMesosLabel ("web/frontend#1..-x-".toList) :=
  (sanitizeMesosLabel_spec ("web/frontend#1..-x-".toList)).1


/-! Lemmas about the Go `net` decimal printer/parser pair, used for the
round-trip claim. -/

/-- Digit value of a character. -/
def digitVal (c : Char) : Nat := c.toNat - '0'.toNat

/-- Value of a digit string continued from accumulator `a` (the way
`dtoi`'s loop accumulates). -/
def valFrom (a : Nat) (ds : List Char) : Nat :=
  ds.foldl (fun x c => x * 10 + digitVal c) a

/-- The digit list of `n` (most significant first, empty for 0); the
functional form of the buffer Go's `uitoa` fills from the right. -/
def goDigits : Nat → List Char
  | 0 => []
  | n + 1 => goDigits ((n + 1) / 10) ++ [digitCh ((n + 1) % 10)]
decreasing_by exact Nat.div_lt_self (Nat.succ_pos n) (by norm_num)

theorem digitCh_isDigit (d : Nat) (h : d < 10) : isDigitCh (digitCh d) = true := by
  interval_cases d <;> decide

theorem digitVal_digitCh (d : Nat) (h : d < 10) : digitVal (digitCh d) = d := by
  interval_cases d <;> decide

theorem goDigits_digits : ∀ n : Nat, ∀ c ∈ goDigits n, isDigitCh c = true := by
  intro n
  induction n using Nat.strong_induction_on with
  | _ n ih =>
    match n with
    | 0 => intro c hc; simp [goDigits] at hc
    | m + 1 =>
      intro c hc
      rw [goDigits] at hc
      rcases List.mem_append.mp hc with hc | hc
      · exact ih ((m + 1) / 10) (Nat.div_lt_self (Nat.succ_pos m) (by norm_num)) c hc
      · have : c = digitCh ((m + 1) % 10) := by simpa using hc
        rw [this]
        exact digitCh_isDigit _ (Nat.mod_lt _ (by norm_num))

theorem valFrom_append (a : Nat) (ds es : List Char) :
    valFrom a (ds ++ es) = valFrom (valFrom a ds) es := by
  unfold valFrom
  rw [List.foldl_append]

theorem goDigits_val : ∀ n : Nat, valFrom 0 (goDigits n) = n ∧
    ∀ a : Nat, valFrom a (goDigits n) = a * 10 ^ (goDigits n).length + n := by
  intro n
  induction n using Nat.strong_induction_on with
  | _ n ih =>
    match n with
    | 0 =>
      constructor
      · simp [goDigits, valFrom]
      · intro a
        simp [goDigits, valFrom]
    | m + 1 =>
      have hlt : (m + 1) / 10 < m + 1 := Nat.div_lt_self (Nat.succ_pos m) (by norm_num)
      have ihq := (ih ((m + 1) / 10) hlt).2
      have hkey : ∀ a : Nat, valFrom a (goDigits (m + 1)) =
          a * 10 ^ (goDigits (m + 1)).length + (m + 1) := by
        intro a
        rw [goDigits, valFrom_append, ihq a]
        unfold valFrom
        simp only [List.foldl_cons, List.foldl_nil, List.length_append,
          List.length_singleton]
        rw [digitVal_digitCh _ (Nat.mod_lt _ (by norm_num))]
        rw [pow_succ]
        have := Nat.div_add_mod (m + 1) 10
        ring_nf
        omega
      refine ⟨?_, hkey⟩
      have := hkey 0
      simpa using this

theorem valFrom_ge (a : Nat) (ds : List Char) : a ≤ valFrom a ds := by
  induction ds generalizing a with
  | nil => exact le_refl a
  | cons c rest ih =>
    unfold valFrom at ih ⊢
    simp only [List.foldl_cons]
    exact le_trans (by omega) (ih (a * 10 + digitVal c))

theorem dtoiAux_run : ∀ (ds rest : List Char) (acc i : Nat),
    (∀ c ∈ ds, isDigitCh c = true) →
    (∀ c, rest.head? = some c → isDigitCh c = false) →
    valFrom acc ds < bigConst →
    (ds = [] → i ≠ 0) →
    dtoiAux (ds ++ rest) acc i = (valFrom acc ds, i + ds.length, true) := by
  intro ds
  induction ds with
  | nil =>
    intro rest acc i _ hrest _ hne
    have hi : i ≠ 0 := hne rfl
    cases rest with
    | nil => simp [dtoiAux, hi, valFrom]
    | cons c r =>
      have hc : isDigitCh c = false := hrest c rfl
      simp [dtoiAux, hc, hi, valFrom]
  | cons d ds ih =>
    intro rest acc i hds hrest hbound _
    have hd : isDigitCh d = true := hds d (List.mem_cons_self d ds)
    have hstep : valFrom acc (d :: ds) = valFrom (acc * 10 + digitVal d) ds := rfl
    rw [hstep] at hbound
    have hge := valFrom_ge (acc * 10 + digitVal d) ds
    have hbound2 : valFrom (acc * 10 + (d.toNat - '0'.toNat)) ds < bigConst := hbound
    have hge2 : acc * 10 + (d.toNat - '0'.toNat) ≤
        valFrom (acc * 10 + (d.toNat - '0'.toNat)) ds := hge
    have hlt' : ¬(acc * 10 + (d.toNat - '0'.toNat) ≥ bigConst) := by omega
    show dtoiAux (d :: (ds ++ rest)) acc i = _
    rw [dtoiAux, if_pos hd, if_neg hlt']
    have hrec := ih rest (acc * 10 + (d.toNat - '0'.toNat)) (i + 1)
        (fun c hc => hds c (List.mem_cons_of_mem d hc)) hrest hbound2 (fun _ => by omega)
    rw [hrec]
    have hv : valFrom (acc * 10 + (d.toNat - '0'.toNat)) ds = valFrom acc (d :: ds) := rfl
    rw [hv]
    simp only [List.length_cons]
    have harith : i + 1 + ds.length = i + (ds.length + 1) := by omega
    rw [harith]

theorem uitoaAux_eq_goDigits : ∀ (n : Nat), ∀ (fuel : Nat) (acc : List Char), n ≤ fuel →
    uitoaAux fuel n acc = goDigits n ++ acc := by
  intro n
  induction n using Nat.strong_induction_on with
  | _ n ih =>
    intro fuel acc hle
    cases n with
    | zero =>
      cases fuel with
      | zero => simp [uitoaAux, goDigits]
      | succ f => simp [uitoaAux, goDigits]
    | succ m =>
      cases fuel with
      | zero => omega
      | succ f =>
        have hone : uitoaAux (f + 1) (m + 1) acc =
            uitoaAux f ((m + 1) / 10) (digitCh ((m + 1) % 10) :: acc) := rfl
        rw [hone]
        have hlt : (m + 1) / 10 < m + 1 := Nat.div_lt_self (Nat.succ_pos m) (by norm_num)
        rw [ih ((m + 1) / 10) hlt f (digitCh ((m + 1) % 10) :: acc) (by omega)]
        rw [goDigits]
        simp

theorem uitoa_eq_goDigits (n : Nat) (h : n ≠ 0) : uitoa n = goDigits n := by
  unfold uitoa
  rw [if_neg h, uitoaAux_eq_goDigits n n [] le_rfl]
  simp

theorem uitoa_digits (n : Nat) : ∀ c ∈ uitoa n, isDigitCh c = true := by
  by_cases h : n = 0
  · subst h
    intro c hc
    have : c = '0' := by simpa [uitoa] using hc
    rw [this]
    decide
  · rw [uitoa_eq_goDigits n h]
    exact goDigits_digits n

theorem uitoa_ne_nil (n : Nat) : uitoa n ≠ [] := by
  by_cases h : n = 0
  · subst h
    simp [uitoa]
  · rw [uitoa_eq_goDigits n h]
    match n, h with
    | m + 1, _ =>
      rw [goDigits]
      simp

theorem dtoi_uitoa (n : Nat) (hn : n < bigConst) (rest : List Char)
    (hrest : ∀ c, rest.head? = some c → isDigitCh c = false) :
    dtoi (uitoa n ++ rest) = (n, (uitoa n).length, true) := by
  by_cases h : n = 0
  · subst h
    show dtoiAux (['0'] ++ rest) 0 0 = (0, 1, true)
    have : valFrom 0 ['0'] = 0 := by decide
    rw [dtoiAux_run ['0'] rest 0 0 (by decide) hrest (by rw [this]; decide)
        (by intro hc; exact absurd hc (by decide))]
    rw [this]
    rfl
  · rw [uitoa_eq_goDigits n h]
    unfold dtoi
    rw [dtoiAux_run (goDigits n) rest 0 0 (goDigits_digits n) hrest
        (by rw [(goDigits_val n).1]; exact hn) (fun hnil => ?_)]
    · rw [(goDigits_val n).1]
      simp
    · exfalso
      apply h
      have := (goDigits_val n).1
      rw [hnil] at this
      simpa [valFrom] using this.symm


theorem land_255 (x : Nat) (h : x < 256) : x &&& 255 = x := by
  apply Nat.eq_of_testBit_eq
  intro i
  rw [Nat.testBit_and]
  by_cases hi : i < 8
  · have h255 : Nat.testBit 255 i = true := by interval_cases i <;> decide
    simp [h255]
  · have hx : Nat.testBit x i = false := Nat.testBit_eq_false_of_lt (lt_of_lt_of_le h (by
      calc (256 : Nat) = 2 ^ 8 := by norm_num
      _ ≤ 2 ^ i := Nat.pow_le_pow_right (by norm_num) (by omega)))
    simp [hx]

theorem cidrMask_32 : cidrMask 32 32 = [255, 255, 255, 255] := by decide

theorem cidrMask_128 : cidrMask 128 128 = List.replicate 16 255 := by decide

theorem to4_ipv4Of (a b c d : Nat) : to4 (ipv4Of a b c d) = some [a, b, c, d] := by
  simp [to4, ipv4Of, v4InV6Head]

theorem ipMaskOp_and_all255 : ∀ (ip : GoBytes) (n : Nat), (∀ v ∈ ip, v < 256) →
    ip.length = n → (ip.zip (List.replicate n 255)).map (fun q => q.1 &&& q.2) = ip := by
  intro ip
  induction ip with
  | nil => intro n _ _; simp
  | cons v rest ih =>
    intro n hb hlen
    cases n with
    | zero => simp at hlen
    | succ m =>
      simp only [List.replicate_succ, List.zip_cons_cons, List.map_cons]
      rw [land_255 v (hb v (List.mem_cons_self v rest)),
          ih m (fun x hx => hb x (List.mem_cons_of_mem v hx)) (by simpa using hlen)]

theorem ipMaskOp_v4mapped (a b c d : Nat) (hb : ∀ v ∈ [a, b, c, d], v < 256) :
    ipMaskOp (ipv4Of a b c d) (cidrMask 32 32) = [a, b, c, d] := by
  rw [cidrMask_32]
  simp only [ipMaskOp]
  have h1 : ¬(([255, 255, 255, 255] : GoBytes).length = 16 ∧ (ipv4Of a b c d).length = 4 ∧
      (([255, 255, 255, 255] : GoBytes).take 12).all (· == 255) = true) := by
    simp [ipv4Of, v4InV6Head]
  rw [if_neg h1]
  have h2 : (([255, 255, 255, 255] : GoBytes).length = 4 ∧ (ipv4Of a b c d).length = 16 ∧
      ((ipv4Of a b c d).take 12 == v4InV6Head) = true) := by
    simp [ipv4Of, v4InV6Head]
  rw [if_pos h2]
  have h3 : (ipv4Of a b c d).drop 12 = [a, b, c, d] := by simp [ipv4Of, v4InV6Head]
  rw [h3, if_pos (by simp)]
  have h4 : ([255, 255, 255, 255] : GoBytes) = List.replicate 4 255 := by decide
  rw [h4]
  exact ipMaskOp_and_all255 [a, b, c, d] 4 hb (by simp)

theorem ipMaskOp_v6full (ip : GoBytes) (hb : ∀ v ∈ ip, v < 256) (hlen : ip.length = 16) :
    ipMaskOp ip (cidrMask 128 128) = ip := by
  rw [cidrMask_128]
  simp only [ipMaskOp]
  have h1 : ¬((List.replicate 16 (255 : Nat)).length = 16 ∧ ip.length = 4 ∧
      ((List.replicate 16 (255 : Nat)).take 12).all (· == 255) = true) := by
    simp [hlen]
  rw [if_neg h1]
  have h2 : ¬((List.replicate 16 (255 : Nat)).length = 4 ∧ ip.length = 16 ∧
      (ip.take 12 == v4InV6Head) = true) := by
    simp
  rw [if_neg h2]
  rw [if_pos (by simp [hlen])]
  exact ipMaskOp_and_all255 ip 16 hb (by simp [hlen])

theorem ipEqual_self (ip : GoBytes) : ipEqual ip ip = true := by
  unfold ipEqual
  rw [if_pos rfl]
  simp

theorem ipEqual_v4mapped (a b c d : Nat) : ipEqual [a, b, c, d] (ipv4Of a b c d) = true := by
  unfold ipEqual
  rw [if_neg (by simp [ipv4Of, v4InV6Head])]
  rw [if_pos (by simp [ipv4Of, v4InV6Head])]
  simp [ipv4Of, v4InV6Head]


theorem parseIPv4Aux_step0 (k : Nat) (x : Nat) (hx : x ≤ 255) (r : List Char)
    (hr : ∀ ch, r.head? = some ch → isDigitCh ch = false) :
    parseIPv4Aux (k + 1) (uitoa x ++ r) [] = parseIPv4Aux k r [x] := by
  obtain ⟨c0, t0, hu⟩ : ∃ c0 t0, uitoa x = c0 :: t0 := by
    cases hu : uitoa x with
    | nil => exact absurd hu (uitoa_ne_nil x)
    | cons c0 t0 => exact ⟨c0, t0, rfl⟩
  have hd := dtoi_uitoa x (by unfold bigConst; omega) r hr
  rw [hu] at hd ⊢
  rw [List.cons_append]
  rw [List.cons_append] at hd
  have h1 : parseIPv4Aux (k + 1) (c0 :: (t0 ++ r)) [] =
      (match dtoi (c0 :: (t0 ++ r)) with
       | (n, c, ok) => if ok && decide (n ≤ 0xFF) then
           parseIPv4Aux k ((c0 :: (t0 ++ r)).drop c) ([] ++ [n]) else none) := rfl
  rw [h1, hd]
  show (if true && decide (x ≤ 0xFF) then
      parseIPv4Aux k ((c0 :: (t0 ++ r)).drop (c0 :: t0).length) ([] ++ [x]) else none) =
    parseIPv4Aux k r [x]
  rw [if_pos (by simp [hx])]
  have hdrop : (c0 :: (t0 ++ r)).drop (c0 :: t0).length = r := by
    simp only [List.length_cons, List.drop_succ_cons]
    exact List.drop_left t0 r
  rw [hdrop]
  rfl

theorem parseIPv4Aux_stepDot (k : Nat) (x : Nat) (hx : x ≤ 255) (r : List Char)
    (a0 : Nat) (accT : GoBytes)
    (hr : ∀ ch, r.head? = some ch → isDigitCh ch = false) :
    parseIPv4Aux (k + 1) ('.' :: (uitoa x ++ r)) (a0 :: accT) =
      parseIPv4Aux k r ((a0 :: accT) ++ [x]) := by
  have hd := dtoi_uitoa x (by unfold bigConst; omega) r hr
  have h1 : parseIPv4Aux (k + 1) ('.' :: (uitoa x ++ r)) (a0 :: accT) =
      (match dtoi (uitoa x ++ r) with
       | (n, c, ok) => if ok && decide (n ≤ 0xFF) then
           parseIPv4Aux k ((uitoa x ++ r).drop c) ((a0 :: accT) ++ [n]) else none) := rfl
  rw [h1, hd]
  show (if true && decide (x ≤ 0xFF) then
      parseIPv4Aux k ((uitoa x ++ r).drop (uitoa x).length) ((a0 :: accT) ++ [x]) else none) =
    parseIPv4Aux k r ((a0 :: accT) ++ [x])
  rw [if_pos (by simp [hx])]
  rw [List.drop_left]

theorem parseIPv4Aux_done (acc : GoBytes) :
    parseIPv4Aux 0 [] acc = some (v4InV6Head ++ acc) := by
  simp [parseIPv4Aux]

theorem head_dot_notDigit (x : Nat) (r : List Char) :
    ∀ ch, (('.' :: (uitoa x ++ r)).head? = some ch) → isDigitCh ch = false := by
  intro ch hch
  have hc : '.' = ch := by simpa using hch
  rw [← hc]
  decide

theorem dotted_assoc (a b c d : Nat) :
    dotted [a, b, c, d] =
      uitoa a ++ ('.' :: (uitoa b ++ ('.' :: (uitoa c ++ ('.' :: uitoa d))))) := by
  show uitoa a ++ ".".toList ++ uitoa b ++ ".".toList ++ uitoa c ++ ".".toList ++ uitoa d = _
  simp

theorem parseIPv4_dotted (a b c d : Nat) (ha : a ≤ 255) (hb : b ≤ 255) (hc : c ≤ 255)
    (hd : d ≤ 255) : parseIPv4 (dotted [a, b, c, d]) = some (ipv4Of a b c d) := by
  unfold parseIPv4
  rw [dotted_assoc]
  rw [parseIPv4Aux_step0 3 a ha _ (head_dot_notDigit b _)]
  rw [parseIPv4Aux_stepDot 2 b hb ('.' :: (uitoa c ++ ('.' :: uitoa d))) a []
      (by intro ch h; have hc2 : '.' = ch := (by simpa using h); subst hc2; decide)]
  show parseIPv4Aux 2 ('.' :: (uitoa c ++ ('.' :: uitoa d))) [a, b] = _
  rw [parseIPv4Aux_stepDot 1 c hc ('.' :: uitoa d) a [b]
      (by intro ch h; have hc2 : '.' = ch := (by simpa using h); subst hc2; decide)]
  show parseIPv4Aux 1 ('.' :: uitoa d) [a, b, c] = _
  have hlast : ('.' :: uitoa d) = '.' :: (uitoa d ++ []) := by rw [List.append_nil]
  rw [hlast, parseIPv4Aux_stepDot 0 d hd [] a [b, c] (by intro ch h; simp at h)]
  show parseIPv4Aux 0 [] [a, b, c, d] = _
  rw [parseIPv4Aux_done]
  rfl

theorem dotted_chars (a b c d : Nat) :
    ∀ ch ∈ dotted [a, b, c, d], isDigitCh ch = true ∨ ch = '.' := by
  intro ch hch
  rw [dotted_assoc] at hch
  simp only [List.mem_append, List.mem_cons] at hch
  rcases hch with h | h | h | h | h | h | h
  · exact Or.inl (uitoa_digits a ch h)
  · exact Or.inr h
  · exact Or.inl (uitoa_digits b ch h)
  · exact Or.inr h
  · exact Or.inl (uitoa_digits c ch h)
  · exact Or.inr h
  · exact Or.inl (uitoa_digits d ch h)

theorem findIdx_slash_aux (addr : List Char) (h : ∀ ch ∈ addr, (ch == '/') = false)
    (tail : List Char) :
    ∀ i, List.findIdx? (fun x => x == '/') (addr ++ '/' :: tail) i =
      some (i + addr.length) := by
  induction addr with
  | nil =>
    intro i
    simp [List.findIdx?_cons]
  | cons a r ih =>
    intro i
    have ha : (a == '/') = false := h a (List.mem_cons_self a r)
    simp only [List.cons_append, List.findIdx?_cons, ha, Bool.false_eq_true, if_false]
    rw [ih (fun ch hch => h ch (List.mem_cons_of_mem a hch)) (i + 1)]
    simp only [List.length_cons]
    congr 1
    omega

theorem findIdx_slash (addr : List Char) (h : ∀ ch ∈ addr, (ch == '/') = false)
    (tail : List Char) :
    (addr ++ '/' :: tail).findIdx? (· == '/') = some addr.length := by
  have := findIdx_slash_aux addr h tail 0
  simpa using this


/-- All facts needed about the sixteen hex digit characters at once:
none of them is `'.'`, `':'`, `'/'` or `'%'`, each is a hex character,
and `hexVal` inverts `hexDigitCh`. -/
theorem hexDigitCh_facts (v : Nat) (hv : v < 16) :
    (hexDigitCh v == '.') = false ∧ (hexDigitCh v == ':') = false ∧
    (hexDigitCh v == '/') = false ∧ (hexDigitCh v == '%') = false ∧
    isHexCh (hexDigitCh v) = true ∧ hexVal (hexDigitCh v) = v := by
  interval_cases v <;> decide

/-- `appendHex` written out by magnitude of its (16-bit) argument. -/
theorem appendHex_eq (g : Nat) (hg : g < 0x10000) :
    appendHex g =
      if g < 16 then [hexDigitCh g]
      else if g < 256 then [hexDigitCh (g / 16), hexDigitCh (g % 16)]
      else if g < 4096 then
        [hexDigitCh (g / 256), hexDigitCh (g / 16 % 16), hexDigitCh (g % 16)]
      else
        [hexDigitCh (g / 4096), hexDigitCh (g / 256 % 16), hexDigitCh (g / 16 % 16),
         hexDigitCh (g % 16)] := by
  by_cases h0 : g = 0
  · subst h0; decide
  · rw [appendHex, if_neg h0]
    by_cases h16 : g < 16
    · rw [if_pos h16]
      have e1 : g / 4096 = 0 := by omega
      have e2 : g / 256 = 0 := by omega
      have e3 : g / 16 = 0 := by omega
      have e4 : g % 16 = g := by omega
      rw [e1, e2, e3, e4]
      simp
    · rw [if_neg h16]
      by_cases h256 : g < 256
      · rw [if_pos h256]
        have e1 : g / 4096 = 0 := by omega
        have e2 : g / 256 = 0 := by omega
        have e3 : 0 < g / 16 := by omega
        have e4 : g / 16 % 16 = g / 16 := by omega
        rw [e1, e2, e4]
        simp [e3]
      · rw [if_neg h256]
        by_cases h4096 : g < 4096
        · rw [if_pos h4096]
          have e1 : g / 4096 = 0 := by omega
          have e2 : 0 < g / 256 := by omega
          have e3 : 0 < g / 16 := by omega
          have e4 : g / 256 % 16 = g / 256 := by omega
          rw [e1, e4]
          simp [e2, e3]
        · rw [if_neg h4096]
          have e1 : 0 < g / 4096 := by omega
          have e2 : 0 < g / 256 := by omega
          have e3 : 0 < g / 16 := by omega
          have e4 : g / 4096 % 16 = g / 4096 := by omega
          rw [e4]
          simp [e1, e2, e3]

/-- Every character `appendHex` emits is a hex digit character. -/
theorem appendHex_mem (g : Nat) (hg : g < 0x10000) :
    ∀ ch ∈ appendHex g, ∃ v, v < 16 ∧ ch = hexDigitCh v := by
  rw [appendHex_eq g hg]
  split_ifs with h1 h2 h3 <;> intro ch hch <;> simp only [List.mem_cons, List.not_mem_nil,
    or_false] at hch
  · exact ⟨g, by omega, hch⟩
  · rcases hch with h | h
    · exact ⟨g / 16, by omega, h⟩
    · exact ⟨g % 16, by omega, h⟩
  · rcases hch with h | h | h
    · exact ⟨g / 256, by omega, h⟩
    · exact ⟨g / 16 % 16, by omega, h⟩
    · exact ⟨g % 16, by omega, h⟩
  · rcases hch with h | h | h | h
    · exact ⟨g / 4096, by omega, h⟩
    · exact ⟨g / 256 % 16, by omega, h⟩
    · exact ⟨g / 16 % 16, by omega, h⟩
    · exact ⟨g % 16, by omega, h⟩

/-- `appendHex` output is never empty, so it has a head character (a hex
digit by `appendHex_mem`). -/
theorem appendHex_cons (g : Nat) (hg : g < 0x10000) :
    ∃ c t, appendHex g = c :: t := by
  rw [appendHex_eq g hg]
  split_ifs <;> exact ⟨_, _, rfl⟩

/-- One accepting step of the `xtoi` loop. -/
theorem xtoiAux_step (c : Char) (rest : List Char) (n i : Nat)
    (hc : isHexCh c = true) (hn : n * 16 + hexVal c < bigConst) :
    xtoiAux (c :: rest) n i = xtoiAux rest (n * 16 + hexVal c) (i + 1) := by
  show (if isHexCh c = true then
      if n * 16 + hexVal c ≥ bigConst then ((0 : Nat), i, false)
      else xtoiAux rest (n * 16 + hexVal c) (i + 1)
    else if i = 0 then ((0 : Nat), i, false) else (n, i, true)) = _
  rw [if_pos hc, if_neg (by omega)]

/-- The `xtoi` loop stops with success at the end of input or at a
non-hex character, provided it has consumed at least one character. -/
theorem xtoiAux_stop (rest : List Char)
    (hrest : ∀ ch, rest.head? = some ch → isHexCh ch = false) (n i : Nat) (hi : i ≠ 0) :
    xtoiAux rest n i = (n, i, true) := by
  cases rest with
  | nil => simp [xtoiAux, hi]
  | cons c t =>
    have hc := hrest c rfl
    show (if isHexCh c = true then _ else if i = 0 then ((0 : Nat), i, false)
      else (n, i, true)) = _
    rw [hc]
    simp [hi]

/-- `xtoi` inverts `appendHex` on any 16-bit group, consuming exactly the
emitted characters when the remaining input does not begin with a hex
digit. -/
theorem xtoi_appendHex (g : Nat) (hg : g < 0x10000) (rest : List Char)
    (hrest : ∀ ch, rest.head? = some ch → isHexCh ch = false) :
    xtoi (appendHex g ++ rest) = (g, (appendHex g).length, true) := by
  rw [appendHex_eq g hg]
  unfold xtoi
  have hbig : (0xFFFF : Nat) < bigConst := by unfold bigConst; omega
  split_ifs with h1 h2 h3
  · obtain ⟨-, -, -, -, hhex, hval⟩ := hexDigitCh_facts g (by omega)
    simp only [List.cons_append, List.nil_append]
    rw [xtoiAux_step (hexDigitCh g) rest 0 0 hhex (by rw [hval]; omega),
        xtoiAux_stop rest hrest (0 * 16 + hexVal (hexDigitCh g)) 1 (by omega), hval]
    simp
  · obtain ⟨-, -, -, -, hhex1, hval1⟩ := hexDigitCh_facts (g / 16) (by omega)
    obtain ⟨-, -, -, -, hhex2, hval2⟩ := hexDigitCh_facts (g % 16) (by omega)
    simp only [List.cons_append, List.nil_append]
    rw [xtoiAux_step (hexDigitCh (g / 16)) (hexDigitCh (g % 16) :: rest) 0 0 hhex1
          (by rw [hval1]; omega),
        xtoiAux_step (hexDigitCh (g % 16)) rest (0 * 16 + hexVal (hexDigitCh (g / 16))) 1 hhex2
          (by rw [hval1, hval2]; omega),
        xtoiAux_stop rest hrest
          ((0 * 16 + hexVal (hexDigitCh (g / 16))) * 16 + hexVal (hexDigitCh (g % 16))) 2
          (by omega),
        hval1, hval2]
    have he : (0 * 16 + g / 16) * 16 + g % 16 = g := by omega
    rw [he]
    simp
  · obtain ⟨-, -, -, -, hhex1, hval1⟩ := hexDigitCh_facts (g / 256) (by omega)
    obtain ⟨-, -, -, -, hhex2, hval2⟩ := hexDigitCh_facts (g / 16 % 16) (by omega)
    obtain ⟨-, -, -, -, hhex3, hval3⟩ := hexDigitCh_facts (g % 16) (by omega)
    simp only [List.cons_append, List.nil_append]
    rw [xtoiAux_step (hexDigitCh (g / 256))
          (hexDigitCh (g / 16 % 16) :: hexDigitCh (g % 16) :: rest) 0 0 hhex1
          (by rw [hval1]; omega),
        xtoiAux_step (hexDigitCh (g / 16 % 16)) (hexDigitCh (g % 16) :: rest)
          (0 * 16 + hexVal (hexDigitCh (g / 256))) 1 hhex2
          (by rw [hval1, hval2]; omega),
        xtoiAux_step (hexDigitCh (g % 16)) rest
          ((0 * 16 + hexVal (hexDigitCh (g / 256))) * 16 + hexVal (hexDigitCh (g / 16 % 16))) 2
          hhex3 (by rw [hval1, hval2, hval3]; omega),
        xtoiAux_stop rest hrest
          (((0 * 16 + hexVal (hexDigitCh (g / 256))) * 16 + hexVal (hexDigitCh (g / 16 % 16)))
              * 16 + hexVal (hexDigitCh (g % 16))) 3
          (by omega),
        hval1, hval2, hval3]
    have he : ((0 * 16 + g / 256) * 16 + g / 16 % 16) * 16 + g % 16 = g := by omega
    rw [he]
    simp
  · obtain ⟨-, -, -, -, hhex1, hval1⟩ := hexDigitCh_facts (g / 4096) (by omega)
    obtain ⟨-, -, -, -, hhex2, hval2⟩ := hexDigitCh_facts (g / 256 % 16) (by omega)
    obtain ⟨-, -, -, -, hhex3, hval3⟩ := hexDigitCh_facts (g / 16 % 16) (by omega)
    obtain ⟨-, -, -, -, hhex4, hval4⟩ := hexDigitCh_facts (g % 16) (by omega)
    simp only [List.cons_append, List.nil_append]
    rw [xtoiAux_step (hexDigitCh (g / 4096))
          (hexDigitCh (g / 256 % 16) :: hexDigitCh (g / 16 % 16) :: hexDigitCh (g % 16) :: rest)
          0 0 hhex1 (by rw [hval1]; omega),
        xtoiAux_step (hexDigitCh (g / 256 % 16))
          (hexDigitCh (g / 16 % 16) :: hexDigitCh (g % 16) :: rest)
          (0 * 16 + hexVal (hexDigitCh (g / 4096))) 1 hhex2
          (by rw [hval1, hval2]; omega),
        xtoiAux_step (hexDigitCh (g / 16 % 16)) (hexDigitCh (g % 16) :: rest)
          ((0 * 16 + hexVal (hexDigitCh (g / 4096))) * 16 + hexVal (hexDigitCh (g / 256 % 16)))
          2 hhex3 (by rw [hval1, hval2, hval3]; omega),
        xtoiAux_step (hexDigitCh (g % 16)) rest
          (((0 * 16 + hexVal (hexDigitCh (g / 4096))) * 16 + hexVal (hexDigitCh (g / 256 % 16)))
              * 16 + hexVal (hexDigitCh (g / 16 % 16))) 3 hhex4
          (by rw [hval1, hval2, hval3, hval4]; omega),
        xtoiAux_stop rest hrest
          ((((0 * 16 + hexVal (hexDigitCh (g / 4096))) * 16 + hexVal (hexDigitCh (g / 256 % 16)))
              * 16 + hexVal (hexDigitCh (g / 16 % 16))) * 16 + hexVal (hexDigitCh (g % 16))) 4
          (by omega),
        hval1, hval2, hval3, hval4]
    have he : (((0 * 16 + g / 4096) * 16 + g / 256 % 16) * 16 + g / 16 % 16) * 16 + g % 16
        = g := by omega
    rw [he]
    simp

/-- The byte sequence denoted by a list of 16-bit groups, high byte
first (`parseIPv6` writes exactly these two bytes per parsed group). -/
def bytesOfGroups (gs : List Nat) : GoBytes :=
  gs.flatMap (fun g => [g / 256, g % 256])

theorem bytesOfGroups_cons (g : Nat) (gs : List Nat) :
    bytesOfGroups (g :: gs) = g / 256 :: g % 256 :: bytesOfGroups gs := rfl

theorem bytesOfGroups_append (l1 l2 : List Nat) :
    bytesOfGroups (l1 ++ l2) = bytesOfGroups l1 ++ bytesOfGroups l2 := by
  simp [bytesOfGroups]

theorem bytesOfGroups_length (gs : List Nat) :
    (bytesOfGroups gs).length = 2 * gs.length := by
  induction gs with
  | nil => rfl
  | cons g t ih =>
    rw [bytesOfGroups_cons]
    simp only [List.length_cons, ih]
    omega

theorem bytesOfGroups_replicate0 (n : Nat) :
    bytesOfGroups (List.replicate n 0) = List.replicate (2 * n) 0 := by
  induction n with
  | zero => rfl
  | succ m ih =>
    rw [List.replicate_succ, bytesOfGroups_cons, ih]
    have h2 : 2 * (m + 1) = 2 * m + 1 + 1 := by omega
    rw [h2, List.replicate_succ, List.replicate_succ]

theorem groupsOf_length : ∀ (ip : GoBytes), (groupsOf ip).length = ip.length / 2
  | [] => rfl
  | [a] => by simp [show groupsOf [a] = [] from rfl]
  | a :: b :: rest => by
    have ih := groupsOf_length rest
    rw [show groupsOf (a :: b :: rest) = (a * 256 + b) :: groupsOf rest from rfl]
    simp only [List.length_cons, ih]
    omega

theorem groupsOf_lt : ∀ (ip : GoBytes), (∀ v ∈ ip, v < 256) →
    ∀ g ∈ groupsOf ip, g < 0x10000
  | [], _, g, hg => absurd hg (List.not_mem_nil g)
  | [_], _, g, hg => absurd hg (List.not_mem_nil g)
  | a :: b :: rest, hb, g, hg => by
    rw [show groupsOf (a :: b :: rest) = (a * 256 + b) :: groupsOf rest from rfl] at hg
    rcases List.mem_cons.mp hg with h | h
    · have ha := hb a (by simp)
      have hbb := hb b (by simp)
      omega
    · exact groupsOf_lt rest (fun v hv => hb v (by simp [hv])) g h

theorem bytesOfGroups_groupsOf : ∀ (ip : GoBytes), (∀ v ∈ ip, v < 256) →
    ip.length % 2 = 0 → bytesOfGroups (groupsOf ip) = ip
  | [], _, _ => rfl
  | [_], _, hlen => by simp at hlen
  | a :: b :: rest, hb, hlen => by
    have ha := hb a (by simp)
    have hbb := hb b (by simp)
    rw [show groupsOf (a :: b :: rest) = (a * 256 + b) :: groupsOf rest from rfl,
        bytesOfGroups_cons,
        bytesOfGroups_groupsOf rest (fun v hv => hb v (by simp [hv]))
          (by simp only [List.length_cons] at hlen; omega)]
    have h1 : (a * 256 + b) / 256 = a := by omega
    have h2 : (a * 256 + b) % 256 = b := by omega
    rw [h1, h2]

theorem bestRunAux_nil_none (i : Nat) (best : Nat × Nat) :
    bestRunAux [] i none best = best := rfl

theorem bestRunAux_nil_some (i s : Nat) (best : Nat × Nat) :
    bestRunAux [] i (some s) best = if i - s > best.2 then (s, i - s) else best := rfl

theorem bestRunAux_cons (g : Nat) (rest : List Nat) (i : Nat) (cur : Option Nat)
    (best : Nat × Nat) :
    bestRunAux (g :: rest) i cur best =
      if g = 0 then bestRunAux rest (i + 1) (some (cur.getD i)) best
      else match cur with
        | none => bestRunAux rest (i + 1) none best
        | some s =>
          bestRunAux rest (i + 1) none (if i - s > best.2 then (s, i - s) else best) := rfl

/-- Invariant of the zero-run scan: provided `best` is a zero run of the
original list and `cur`, when open, marks a zero run reaching the current
index, the final result is a zero run of the original list. -/
theorem bestRunAux_spec : ∀ (rest : List Nat) (orig : List Nat) (i : Nat) (cur : Option Nat)
    (best : Nat × Nat),
    orig.drop i = rest → i ≤ orig.length →
    best.1 + best.2 ≤ orig.length →
    (orig.drop best.1).take best.2 = List.replicate best.2 0 →
    (∀ s, cur = some s → s ≤ i ∧ (orig.drop s).take (i - s) = List.replicate (i - s) 0) →
    (bestRunAux rest i cur best).1 + (bestRunAux rest i cur best).2 ≤ orig.length ∧
      (orig.drop (bestRunAux rest i cur best).1).take (bestRunAux rest i cur best).2 =
        List.replicate (bestRunAux rest i cur best).2 0
  | [], orig, i, none, best => by
    intro hdrop hi hb1 hb2 _
    rw [bestRunAux_nil_none]
    exact ⟨hb1, hb2⟩
  | [], orig, i, some s, best => by
    intro hdrop hi hb1 hb2 hcur
    obtain ⟨hsi, hz⟩ := hcur s rfl
    rw [bestRunAux_nil_some]
    by_cases hgt : i - s > best.2
    · rw [if_pos hgt]
      exact ⟨by omega, hz⟩
    · rw [if_neg hgt]
      exact ⟨hb1, hb2⟩
  | g :: rest, orig, i, cur, best => by
    intro hdrop hi hb1 hb2 hcur
    have hidx : i < orig.length := by
      have hl : (orig.drop i).length = orig.length - i := List.length_drop i orig
      rw [hdrop] at hl
      simp only [List.length_cons] at hl
      omega
    have hdrop1 : orig.drop (i + 1) = rest := by
      rw [← List.drop_drop, hdrop]
      rfl
    by_cases hg : g = 0
    · have hstep : bestRunAux (g :: rest) i cur best
          = bestRunAux rest (i + 1) (some (cur.getD i)) best := by
        rw [bestRunAux_cons, if_pos hg]
      rw [hstep]
      apply bestRunAux_spec rest orig (i + 1) (some (cur.getD i)) best hdrop1 (by omega) hb1 hb2
      intro s hs
      cases cur with
      | none =>
        have hsi : i = s := by simpa using hs
        refine ⟨by omega, ?_⟩
        rw [← hsi]
        have h1 : i + 1 - i = 1 := by omega
        rw [h1, hdrop, hg]
        rfl
      | some s0 =>
        have hs0 : s0 = s := by simpa using hs
        subst hs0
        obtain ⟨hs1, hz0⟩ := hcur s0 rfl
        refine ⟨by omega, ?_⟩
        have hdecomp : orig.drop s0 = List.replicate (i - s0) 0 ++ (g :: rest) := by
          have h1 : orig.drop s0
              = (orig.drop s0).take (i - s0) ++ (orig.drop s0).drop (i - s0) :=
            (List.take_append_drop _ _).symm
          have h2 : (orig.drop s0).drop (i - s0) = orig.drop i := by
            rw [List.drop_drop]
            congr 1
            omega
          rw [h2, hdrop, hz0] at h1
          exact h1
        rw [hdecomp, hg]
        have hrepl : List.replicate (i - s0) (0 : Nat) ++ 0 :: rest
            = List.replicate (i + 1 - s0) 0 ++ rest := by
          have h3 : i + 1 - s0 = (i - s0) + 1 := by omega
          rw [h3, List.replicate_succ']
          simp
        rw [hrepl]
        exact List.take_left' (by simp)
    · cases cur with
      | none =>
        have hstep : bestRunAux (g :: rest) i none best
            = bestRunAux rest (i + 1) none best := by
          rw [bestRunAux_cons, if_neg hg]
        rw [hstep]
        apply bestRunAux_spec rest orig (i + 1) none best hdrop1 (by omega) hb1 hb2
        intro s hs
        exact absurd hs (by simp)
      | some s =>
        obtain ⟨hsi, hz⟩ := hcur s rfl
        have hstep : bestRunAux (g :: rest) i (some s) best
            = bestRunAux rest (i + 1) none (if i - s > best.2 then (s, i - s) else best) := by
          rw [bestRunAux_cons, if_neg hg]
        rw [hstep]
        by_cases hgt : i - s > best.2
        · rw [if_pos hgt]
          apply bestRunAux_spec rest orig (i + 1) none (s, i - s) hdrop1 (by omega)
            (by omega) hz
          intro s1 hs1
          exact absurd hs1 (by simp)
        · rw [if_neg hgt]
          apply bestRunAux_spec rest orig (i + 1) none best hdrop1 (by omega) hb1 hb2
          intro s1 hs1
          exact absurd hs1 (by simp)

/-- The `::` run `bestRun` selects lies inside the group list, is at
least two groups long, and consists of zero groups. -/
theorem bestRun_spec (gs : List Nat) (a l : Nat) (h : bestRun gs = some (a, l)) :
    a + l ≤ gs.length ∧ 2 ≤ l ∧ (gs.drop a).take l = List.replicate l 0 := by
  have h' : (if (bestRunAux gs 0 none (0, 0)).2 ≤ 1 then none
      else some (bestRunAux gs 0 none (0, 0))) = some (a, l) := h
  by_cases hle : (bestRunAux gs 0 none (0, 0)).2 ≤ 1
  · rw [if_pos hle] at h'
    exact absurd h' (by simp)
  · rw [if_neg hle] at h'
    have heq : bestRunAux gs 0 none (0, 0) = (a, l) := Option.some.inj h'
    have hspec := bestRunAux_spec gs gs 0 none (0, 0) rfl (Nat.zero_le _)
      (by simp) (by simp) (fun s hs => absurd hs (by simp))
    rw [heq] at hspec hle
    exact ⟨hspec.1, by omega, hspec.2⟩

/-- One `parseIPv6` loop iteration consuming the final group of the
input. -/
theorem p6loop_grp_end (fuel g : Nat) (hg : g < 0x10000) (bytes : GoBytes) (ell : Option Nat)
    (hb : bytes.length < 16) :
    p6loop (fuel + 1) (appendHex g) bytes ell = some (bytes ++ [g / 256, g % 256], ell, []) := by
  have hx : xtoi (appendHex g) = (g, (appendHex g).length, true) := by
    have h := xtoi_appendHex g hg [] (by intro ch h; simp at h)
    simpa using h
  have h1 : ¬ bytes.length ≥ 16 := by omega
  have h2 : ¬ g > 0xFFFF := by omega
  rw [p6loop, if_neg h1]
  simp only [hx, not_true, false_or]
  rw [if_neg h2, List.drop_length]
  rfl

/-- One `parseIPv6` loop iteration consuming a group and a single `':'`
separator followed by more input (which does not start with `':'`). -/
theorem p6loop_grp_colon (fuel g : Nat) (hg : g < 0x10000) (bytes : GoBytes) (ell : Option Nat)
    (hb : bytes.length < 16) (c0 : Char) (t0 : List Char) (hc0 : (c0 == ':') = false) :
    p6loop (fuel + 1) (appendHex g ++ ':' :: c0 :: t0) bytes ell =
      p6loop fuel (c0 :: t0) (bytes ++ [g / 256, g % 256]) ell := by
  have hx : xtoi (appendHex g ++ ':' :: c0 :: t0)
      = (g, (appendHex g).length, true) :=
    xtoi_appendHex g hg (':' :: c0 :: t0)
      (by intro ch h; have hco : ':' = ch := (by simpa using h); rw [← hco]; decide)
  have h1 : ¬ bytes.length ≥ 16 := by omega
  have h2 : ¬ g > 0xFFFF := by omega
  rw [p6loop, if_neg h1]
  simp only [hx, not_true, false_or]
  rw [if_neg h2, List.drop_left]
  rw [if_neg (show ¬ ((':' :: c0 :: t0).head? = some '.') by simp)]
  split
  · rename_i x heq
    exact absurd heq (by simp)
  · rename_i x s2 heq
    injection heq with hA hB
    subst hB
    rw [if_neg (show ¬ ((c0 :: t0).isEmpty = true) by simp)]
    split
    · rename_i s3 heq2
      exfalso
      injection heq2 with hC hD
      rw [hC] at hc0
      simp at hc0
    · rfl
  · rename_i x hnil hcons
    exact (hcons (c0 :: t0) rfl).elim


/-- One `parseIPv6` loop iteration consuming the final group followed by
a trailing `"::"`. -/
theorem p6loop_grp_dcolon_end (fuel g : Nat) (hg : g < 0x10000) (bytes : GoBytes)
    (hb : bytes.length < 16) :
    p6loop (fuel + 1) (appendHex g ++ [':', ':']) bytes none =
      some (bytes ++ [g / 256, g % 256], some (bytes ++ [g / 256, g % 256]).length, []) := by
  have hx : xtoi (appendHex g ++ [':', ':'])
      = (g, (appendHex g).length, true) :=
    xtoi_appendHex g hg [':', ':']
      (by intro ch h; have hco : ':' = ch := (by simpa using h); rw [← hco]; decide)
  have h1 : ¬ bytes.length ≥ 16 := by omega
  have h2 : ¬ g > 0xFFFF := by omega
  rw [p6loop, if_neg h1]
  simp only [hx, not_true, false_or]
  rw [if_neg h2, List.drop_left]
  rfl

/-- One `parseIPv6` loop iteration consuming a group followed by an
interior `"::"` and more input. -/
theorem p6loop_grp_dcolon_more (fuel g : Nat) (hg : g < 0x10000) (bytes : GoBytes)
    (hb : bytes.length < 16) (c0 : Char) (t0 : List Char) :
    p6loop (fuel + 1) (appendHex g ++ ':' :: ':' :: c0 :: t0) bytes none =
      p6loop fuel (c0 :: t0) (bytes ++ [g / 256, g % 256])
        (some (bytes ++ [g / 256, g % 256]).length) := by
  have hx : xtoi (appendHex g ++ ':' :: ':' :: c0 :: t0)
      = (g, (appendHex g).length, true) :=
    xtoi_appendHex g hg (':' :: ':' :: c0 :: t0)
      (by intro ch h; have hco : ':' = ch := (by simpa using h); rw [← hco]; decide)
  have h1 : ¬ bytes.length ≥ 16 := by omega
  have h2 : ¬ g > 0xFFFF := by omega
  rw [p6loop, if_neg h1]
  simp only [hx, not_true, false_or]
  rw [if_neg h2, List.drop_left]
  rfl

/-- The rendering of a nonempty group list starts with a hex digit
character. -/
theorem interColon_hexHead (g2 : Nat) (t2 : List Nat) (hg2 : g2 < 0x10000) :
    ∃ c0 t0 v, v < 16 ∧ c0 = hexDigitCh v ∧
      interColon ((g2 :: t2).map appendHex) = c0 :: t0 := by
  obtain ⟨c0, tA, h0⟩ := appendHex_cons g2 hg2
  obtain ⟨v, hv, hc0⟩ := appendHex_mem g2 hg2 c0 (by rw [h0]; exact List.mem_cons_self c0 tA)
  cases t2 with
  | nil => exact ⟨c0, tA, v, hv, hc0, by rw [show interColon ([g2].map appendHex) = appendHex g2 from rfl, h0]⟩
  | cons g3 t3 =>
    refine ⟨c0, tA ++ ':' :: interColon ((g3 :: t3).map appendHex), v, hv, hc0, ?_⟩
    rw [show interColon ((g2 :: g3 :: t3).map appendHex)
        = appendHex g2 ++ ':' :: interColon ((g3 :: t3).map appendHex) from rfl, h0]
    rfl

/-- The `parseIPv6` loop consumes a whole rendered group list, writing
its bytes, when the groups end the input. -/
theorem p6loop_groups : ∀ (gs : List Nat) (fuel : Nat) (bytes : GoBytes) (ell : Option Nat),
    gs ≠ [] → (∀ g ∈ gs, g < 0x10000) → bytes.length + 2 * gs.length ≤ 16 →
    gs.length ≤ fuel →
    p6loop fuel (interColon (gs.map appendHex)) bytes ell =
      some (bytes ++ bytesOfGroups gs, ell, [])
  | [], _, _, _ => fun h _ _ _ => absurd rfl h
  | g :: gs', fuel, bytes, ell => by
    intro hne hlt hlen hfuel
    obtain ⟨f, rfl⟩ : ∃ f, fuel = f + 1 := by
      cases fuel with
      | zero => exact absurd hfuel (by simp)
      | succ f => exact ⟨f, rfl⟩
    have hg : g < 0x10000 := hlt g (List.mem_cons_self g gs')
    have hblen : bytes.length < 16 := by simp only [List.length_cons] at hlen; omega
    cases gs' with
    | nil =>
      rw [show interColon ([g].map appendHex) = appendHex g from rfl]
      rw [p6loop_grp_end f g hg bytes ell hblen]
      simp [bytesOfGroups]
    | cons g2 t2 =>
      obtain ⟨c0, t0, v, hv, hc0eq, hic2⟩ := interColon_hexHead g2 t2 (hlt g2 (by simp))
      have hc0 : (c0 == ':') = false := by
        rw [hc0eq]
        exact (hexDigitCh_facts v hv).2.1
      rw [show interColon ((g :: g2 :: t2).map appendHex)
          = appendHex g ++ ':' :: interColon ((g2 :: t2).map appendHex) from rfl, hic2]
      rw [p6loop_grp_colon f g hg bytes ell hblen c0 t0 hc0]
      rw [← hic2]
      rw [p6loop_groups (g2 :: t2) f (bytes ++ [g / 256, g % 256]) ell (by simp)
        (fun x hx => hlt x (by simp [hx]))
        (by simp only [List.length_cons, List.length_append, List.length_nil] at hlen ⊢; omega)
        (by simp only [List.length_cons] at hfuel ⊢; omega)]
      simp [bytesOfGroups_cons]

/-- The `parseIPv6` loop on a rendered group list followed by a trailing
`"::"`: it records the ellipsis position after the written bytes. -/
theorem p6loop_groups_dcolon_end : ∀ (gs : List Nat) (fuel : Nat) (bytes : GoBytes),
    gs ≠ [] → (∀ g ∈ gs, g < 0x10000) → bytes.length + 2 * gs.length ≤ 16 →
    gs.length ≤ fuel →
    p6loop fuel (interColon (gs.map appendHex) ++ [':', ':']) bytes none =
      some (bytes ++ bytesOfGroups gs, some (bytes.length + 2 * gs.length), [])
  | [], _, _ => fun h _ _ _ => absurd rfl h
  | g :: gs', fuel, bytes => by
    intro hne hlt hlen hfuel
    obtain ⟨f, rfl⟩ : ∃ f, fuel = f + 1 := by
      cases fuel with
      | zero => exact absurd hfuel (by simp)
      | succ f => exact ⟨f, rfl⟩
    have hg : g < 0x10000 := hlt g (List.mem_cons_self g gs')
    have hblen : bytes.length < 16 := by simp only [List.length_cons] at hlen; omega
    cases gs' with
    | nil =>
      rw [show interColon ([g].map appendHex) ++ [':', ':'] = appendHex g ++ [':', ':']
          from rfl]
      rw [p6loop_grp_dcolon_end f g hg bytes hblen]
      simp [bytesOfGroups]
    | cons g2 t2 =>
      obtain ⟨c0, t0, v, hv, hc0eq, hic2⟩ := interColon_hexHead g2 t2 (hlt g2 (by simp))
      have hc0 : (c0 == ':') = false := by
        rw [hc0eq]
        exact (hexDigitCh_facts v hv).2.1
      have hsplit : interColon ((g :: g2 :: t2).map appendHex) ++ [':', ':']
          = appendHex g ++ ':' :: c0 :: (t0 ++ [':', ':']) := by
        rw [show interColon ((g :: g2 :: t2).map appendHex)
            = appendHex g ++ ':' :: interColon ((g2 :: t2).map appendHex) from rfl, hic2]
        simp
      rw [hsplit]
      rw [p6loop_grp_colon f g hg bytes none hblen c0 (t0 ++ [':', ':']) hc0]
      rw [show (c0 :: (t0 ++ [':', ':']))
          = interColon ((g2 :: t2).map appendHex) ++ [':', ':'] from by rw [hic2]; rfl]
      rw [p6loop_groups_dcolon_end (g2 :: t2) f (bytes ++ [g / 256, g % 256]) (by simp)
        (fun x hx => hlt x (by simp [hx]))
        (by simp only [List.length_cons, List.length_append, List.length_nil] at hlen ⊢; omega)
        (by simp only [List.length_cons] at hfuel ⊢; omega)]
      have harith : (bytes ++ [g / 256, g % 256]).length + 2 * (g2 :: t2).length
          = bytes.length + 2 * (g :: g2 :: t2).length := by
        simp only [List.length_append, List.length_cons, List.length_nil]
        omega
      rw [harith]
      simp [bytesOfGroups_cons]

/-- The `parseIPv6` loop on a rendered group list followed by an
interior `"::"` and a second rendered group list. -/
theorem p6loop_groups_dcolon_mid : ∀ (gs gs2 : List Nat) (fuel : Nat) (bytes : GoBytes),
    gs ≠ [] → gs2 ≠ [] → (∀ g ∈ gs, g < 0x10000) → (∀ g ∈ gs2, g < 0x10000) →
    bytes.length + 2 * gs.length + 2 * gs2.length ≤ 16 →
    gs.length + gs2.length ≤ fuel →
    p6loop fuel
        (interColon (gs.map appendHex) ++ ':' :: ':' :: interColon (gs2.map appendHex))
        bytes none =
      some (bytes ++ bytesOfGroups gs ++ bytesOfGroups gs2,
        some (bytes.length + 2 * gs.length), [])
  | [], _, _, _ => fun h _ _ _ _ _ => absurd rfl h
  | g :: gs', gs2, fuel, bytes => by
    intro hne hne2 hlt hlt2 hlen hfuel
    obtain ⟨f, rfl⟩ : ∃ f, fuel = f + 1 := by
      cases fuel with
      | zero => exact absurd hfuel (by simp)
      | succ f => exact ⟨f, rfl⟩
    have hg : g < 0x10000 := hlt g (List.mem_cons_self g gs')
    have hblen : bytes.length < 16 := by simp only [List.length_cons] at hlen; omega
    obtain ⟨gB, tB, hgs2⟩ : ∃ gB tB, gs2 = gB :: tB := by
      cases gs2 with
      | nil => exact absurd rfl hne2
      | cons gB tB => exact ⟨gB, tB, rfl⟩
    cases gs' with
    | nil =>
      obtain ⟨c0, t0, v, hv, hc0eq, hic2⟩ :=
        interColon_hexHead gB tB (hlt2 gB (by rw [hgs2]; simp))
      have hsplit : interColon ([g].map appendHex) ++ ':' :: ':' :: interColon (gs2.map appendHex)
          = appendHex g ++ ':' :: ':' :: c0 :: t0 := by
        rw [hgs2, hic2]
        rfl
      rw [hsplit]
      rw [p6loop_grp_dcolon_more f g hg bytes hblen c0 t0]
      rw [show (c0 :: t0) = interColon (gs2.map appendHex) from by rw [hgs2, hic2]]
      rw [p6loop_groups gs2 f (bytes ++ [g / 256, g % 256])
        (some (bytes ++ [g / 256, g % 256]).length) (by rw [hgs2]; simp) hlt2
        (by simp only [List.length_cons, List.length_append, List.length_nil] at hlen ⊢; omega)
        (by simp only [List.length_cons] at hfuel ⊢; omega)]
      have harith : (bytes ++ [g / 256, g % 256]).length = bytes.length + 2 * ([g] : List Nat).length := by
        simp
      rw [harith]
      simp [bytesOfGroups]
    | cons g2 t2 =>
      obtain ⟨c0, t0, v, hv, hc0eq, hic2⟩ := interColon_hexHead g2 t2 (hlt g2 (by simp))
      have hc0 : (c0 == ':') = false := by
        rw [hc0eq]
        exact (hexDigitCh_facts v hv).2.1
      have hsplit : interColon ((g :: g2 :: t2).map appendHex) ++
            ':' :: ':' :: interColon (gs2.map appendHex)
          = appendHex g ++ ':' :: c0 ::
              (t0 ++ ':' :: ':' :: interColon (gs2.map appendHex)) := by
        rw [show interColon ((g :: g2 :: t2).map appendHex)
            = appendHex g ++ ':' :: interColon ((g2 :: t2).map appendHex) from rfl, hic2]
        simp
      rw [hsplit]
      rw [p6loop_grp_colon f g hg bytes none hblen c0
        (t0 ++ ':' :: ':' :: interColon (gs2.map appendHex)) hc0]
      rw [show (c0 :: (t0 ++ ':' :: ':' :: interColon (gs2.map appendHex)))
          = interColon ((g2 :: t2).map appendHex) ++ ':' :: ':' :: interColon (gs2.map appendHex)
          from by rw [hic2]; rfl]
      rw [p6loop_groups_dcolon_mid (g2 :: t2) gs2 f (bytes ++ [g / 256, g % 256]) (by simp)
        hne2 (fun x hx => hlt x (by simp [hx])) hlt2
        (by simp only [List.length_cons, List.length_append, List.length_nil] at hlen ⊢; omega)
        (by simp only [List.length_cons] at hfuel ⊢; omega)]
      have harith : (bytes ++ [g / 256, g % 256]).length + 2 * (g2 :: t2).length
          = bytes.length + 2 * (g :: g2 :: t2).length := by
        simp only [List.length_append, List.length_cons, List.length_nil]
        omega
      rw [harith]
      simp [bytesOfGroups_cons]

theorem p6finish_some (bytes : GoBytes) (ell : Option Nat) :
    p6finish (some (bytes, ell, [])) =
      (if bytes.length < 16 then
        match ell with
        | none => none
        | some e => some (bytes.take e ++ List.replicate (16 - bytes.length) 0 ++ bytes.drop e)
      else if ell ≠ none then none else some bytes) := rfl

theorem p6finish_ell (bytes : GoBytes) (e : Nat) (h : bytes.length < 16) :
    p6finish (some (bytes, some e, [])) =
      some (bytes.take e ++ List.replicate (16 - bytes.length) 0 ++ bytes.drop e) := by
  rw [p6finish_some, if_pos h]

theorem p6finish_full (bytes : GoBytes) (h : bytes.length = 16) :
    p6finish (some (bytes, none, [])) = some bytes := by
  rw [p6finish_some, if_neg (by omega)]
  rw [if_neg (by simp)]

/-- `parseIPv6` on input that does not begin with `':'` goes straight to
the main loop. -/
theorem parseIPv6_notColon (c0 : Char) (t0 : List Char) (hc0 : (c0 == ':') = false) :
    parseIPv6 (c0 :: t0) = p6finish (p6loop 9 (c0 :: t0) [] none) := by
  unfold parseIPv6
  split
  · rename_i rest heq
    exfalso
    injection heq with hA hB
    rw [hA] at hc0
    simp at hc0
  · rfl

/-- `parseIPv6` undoes the group rendering of the IPv6 branch of
`IP.String` (stated over the group list of a 16-byte address). -/
theorem parseIPv6_render (gs : List Nat) (hlt : ∀ g ∈ gs, g < 0x10000)
    (hglen : gs.length = 8) :
    parseIPv6 (match bestRun gs with
      | none => interColon (gs.map appendHex)
      | some (a, l) =>
        interColon ((gs.take a).map appendHex) ++ "::".toList ++
          interColon ((gs.drop (a + l)).map appendHex)) = some (bytesOfGroups gs) := by
  have hblen : (bytesOfGroups gs).length = 16 := by rw [bytesOfGroups_length, hglen]
  cases hbr : bestRun gs with
  | none =>
    show parseIPv6 (interColon (gs.map appendHex)) = some (bytesOfGroups gs)
    obtain ⟨gH, tG, hgs⟩ : ∃ gH tG, gs = gH :: tG := by
      cases gs with
      | nil => simp at hglen
      | cons gH tG => exact ⟨gH, tG, rfl⟩
    obtain ⟨c0, t0, v, hv, hc0eq, hic⟩ := interColon_hexHead gH tG (hlt gH (by rw [hgs]; simp))
    have hc0 : (c0 == ':') = false := by rw [hc0eq]; exact (hexDigitCh_facts v hv).2.1
    rw [hgs, hic, parseIPv6_notColon c0 t0 hc0, ← hic, ← hgs]
    rw [p6loop_groups gs 9 [] none (by rw [hgs]; simp) hlt
      (by simp [hglen]) (by rw [hglen]; omega)]
    rw [p6finish_full _ (by simp [hblen])]
    rw [List.nil_append]
  | some best =>
    obtain ⟨a, l⟩ := best
    obtain ⟨hal, hl2, hzrun⟩ := bestRun_spec gs a l hbr
    show parseIPv6 (interColon ((gs.take a).map appendHex) ++ [':', ':'] ++
        interColon ((gs.drop (a + l)).map appendHex)) = some (bytesOfGroups gs)
    have htlen : (gs.take a).length = a := by rw [List.length_take]; omega
    have hdlen : (gs.drop (a + l)).length = 8 - (a + l) := by rw [List.length_drop, hglen]
    have hsplitgs : gs = gs.take a ++ (List.replicate l 0 ++ gs.drop (a + l)) := by
      have hdropa : gs.drop a = List.replicate l 0 ++ gs.drop (a + l) := by
        conv_lhs => rw [← List.take_append_drop l (gs.drop a)]
        rw [hzrun, List.drop_drop]
      conv_lhs => rw [← List.take_append_drop a gs]
      rw [hdropa]
    have hrhs : bytesOfGroups gs
        = bytesOfGroups (gs.take a) ++
            (List.replicate (2 * l) 0 ++ bytesOfGroups (gs.drop (a + l))) := by
      conv_lhs => rw [hsplitgs]
      rw [bytesOfGroups_append, bytesOfGroups_append, bytesOfGroups_replicate0]
    have hbt : (bytesOfGroups (gs.take a)).length = 2 * a := by
      rw [bytesOfGroups_length, htlen]
    have hbd : (bytesOfGroups (gs.drop (a + l))).length = 2 * (8 - (a + l)) := by
      rw [bytesOfGroups_length, hdlen]
    by_cases ha0 : a = 0
    · subst ha0
      by_cases hl8 : l = 8
      · subst hl8
        have hdnil : gs.drop (0 + 8) = [] := List.drop_eq_nil_of_le (by omega)
        rw [hdnil]
        show parseIPv6 [':', ':'] = some (bytesOfGroups gs)
        rw [show parseIPv6 [':', ':'] = some (List.replicate 16 0) from rfl]
        have hgs0 : gs = List.replicate 8 0 := by
          conv_lhs => rw [hsplitgs]
          rw [hdnil]
          simp
        rw [hgs0, bytesOfGroups_replicate0]
      · have hdne : gs.drop (0 + l) ≠ [] := by
          intro h
          rw [h] at hdlen
          simp at hdlen
          omega
        obtain ⟨gB, tB, hgs2⟩ : ∃ gB tB, gs.drop (0 + l) = gB :: tB := by
          cases hh : gs.drop (0 + l) with
          | nil => exact absurd hh hdne
          | cons gB tB => exact ⟨gB, tB, rfl⟩
        obtain ⟨c0, t0, v, hv, hc0eq, hic⟩ := interColon_hexHead gB tB
          (hlt gB (List.drop_subset _ _ (by rw [hgs2]; exact List.mem_cons_self gB tB)))
        rw [hgs2, hic]
        show parseIPv6 (':' :: ':' :: c0 :: t0) = some (bytesOfGroups gs)
        rw [show parseIPv6 (':' :: ':' :: c0 :: t0)
            = p6finish (p6loop 9 (c0 :: t0) [] (some 0)) from rfl]
        rw [← hic, ← hgs2]
        rw [p6loop_groups (gs.drop (0 + l)) 9 [] (some 0) (by rw [hgs2]; simp)
          (fun x hx => hlt x (List.drop_subset _ _ hx))
          (by simp only [List.length_nil, hdlen]; omega)
          (by rw [hdlen]; omega)]
        rw [List.nil_append]
        rw [p6finish_ell _ 0 (by rw [hbd]; omega)]
        rw [show (bytesOfGroups (gs.drop (0 + l))).take 0 = [] from rfl, List.drop_zero,
            List.nil_append, hbd]
        have hcount : 16 - 2 * (8 - (0 + l)) = 2 * l := by omega
        rw [hcount]
        conv_rhs => rw [hrhs]
        rw [show bytesOfGroups (gs.take 0) = [] from rfl, List.nil_append]
    · have hane : gs.take a ≠ [] := by
        intro h
        rw [h] at htlen
        simp at htlen
        omega
      obtain ⟨gA, tA, hgsA⟩ : ∃ gA tA, gs.take a = gA :: tA := by
        cases hh : gs.take a with
        | nil => exact absurd hh hane
        | cons gA tA => exact ⟨gA, tA, rfl⟩
      obtain ⟨cA, tA0, vA, hvA, hcAeq, hicA⟩ := interColon_hexHead gA tA
        (hlt gA (List.take_subset _ _ (by rw [hgsA]; exact List.mem_cons_self gA tA)))
      have hcA : (cA == ':') = false := by rw [hcAeq]; exact (hexDigitCh_facts vA hvA).2.1
      by_cases hal8 : a + l = 8
      · have hdnil : gs.drop (a + l) = [] := List.drop_eq_nil_of_le (by omega)
        rw [hdnil]
        rw [show interColon (([] : List Nat).map appendHex) = [] from rfl, List.append_nil]
        rw [hgsA, hicA]
        rw [show ((cA :: tA0) ++ [':', ':'] : List Char) = cA :: (tA0 ++ [':', ':']) from rfl]
        rw [parseIPv6_notColon cA (tA0 ++ [':', ':']) hcA]
        rw [show (cA :: (tA0 ++ [':', ':']) : List Char) = (cA :: tA0) ++ [':', ':'] from rfl]
        rw [← hicA, ← hgsA]
        rw [p6loop_groups_dcolon_end (gs.take a) 9 [] (by rw [hgsA]; simp)
          (fun x hx => hlt x (List.take_subset _ _ hx))
          (by simp only [List.length_nil, htlen]; omega)
          (by rw [htlen]; omega)]
        rw [List.nil_append, htlen]
        rw [p6finish_ell _ _ (by rw [hbt]; omega)]
        have he : ([] : GoBytes).length + 2 * a = (bytesOfGroups (gs.take a)).length := by
          simp [hbt]
        rw [he, List.take_length, List.drop_length, hbt]
        have hcount : 16 - 2 * a = 2 * l := by omega
        rw [hcount, List.append_nil]
        conv_rhs => rw [hrhs]
        rw [hdnil, show bytesOfGroups ([] : List Nat) = [] from rfl, List.append_nil]
      · have hdne : gs.drop (a + l) ≠ [] := by
          intro h
          rw [h] at hdlen
          simp at hdlen
          omega
        obtain ⟨gB, tB, hgs2⟩ : ∃ gB tB, gs.drop (a + l) = gB :: tB := by
          cases hh : gs.drop (a + l) with
          | nil => exact absurd hh hdne
          | cons gB tB => exact ⟨gB, tB, rfl⟩
        rw [hgsA, hicA]
        rw [show (((cA :: tA0) ++ [':', ':']) ++ interColon ((gs.drop (a + l)).map appendHex)
              : List Char)
            = cA :: (tA0 ++ [':', ':'] ++ interColon ((gs.drop (a + l)).map appendHex))
            from by simp]
        rw [parseIPv6_notColon cA _ hcA]
        rw [show (cA :: (tA0 ++ [':', ':'] ++ interColon ((gs.drop (a + l)).map appendHex))
              : List Char)
            = interColon ((gs.take a).map appendHex) ++
                ':' :: ':' :: interColon ((gs.drop (a + l)).map appendHex)
            from by rw [hgsA, hicA]; simp]
        rw [p6loop_groups_dcolon_mid (gs.take a) (gs.drop (a + l)) 9 [] (by rw [hgsA]; simp)
          (by rw [hgs2]; simp)
          (fun x hx => hlt x (List.take_subset _ _ hx))
          (fun x hx => hlt x (List.drop_subset _ _ hx))
          (by simp only [List.length_nil, htlen, hdlen]; omega)
          (by rw [htlen, hdlen]; omega)]
        rw [List.nil_append, htlen]
        rw [p6finish_ell _ _ (by rw [List.length_append, hbt, hbd]; omega)]
        have he : ([] : GoBytes).length + 2 * a = (bytesOfGroups (gs.take a)).length := by
          simp [hbt]
        rw [he, List.take_left, List.drop_left]
        rw [List.length_append, hbt, hbd]
        have hcount : 16 - (2 * a + 2 * (8 - (a + l))) = 2 * l := by omega
        rw [hcount]
        conv_rhs => rw [hrhs]
        rw [List.append_assoc]

/-- Round trip: `parseIPv6` inverts the IPv6 rendering of `IP.String` on
any 16-byte address. -/
theorem parseIPv6_ipv6Str (ip : GoBytes) (hb : ∀ b ∈ ip, b < 256) (hlen : ip.length = 16) :
    parseIPv6 (ipv6Str ip) = some ip := by
  have hglen : (groupsOf ip).length = 8 := by rw [groupsOf_length, hlen]
  have hglt : ∀ g ∈ groupsOf ip, g < 0x10000 := groupsOf_lt ip hb
  have hbg : bytesOfGroups (groupsOf ip) = ip := bytesOfGroups_groupsOf ip hb (by omega)
  have h := parseIPv6_render (groupsOf ip) hglt hglen
  rw [hbg] at h
  exact h

theorem interColon_chars : ∀ (gs : List Nat), (∀ g ∈ gs, g < 0x10000) →
    ∀ ch ∈ interColon (gs.map appendHex), ch = ':' ∨ ∃ v, v < 16 ∧ ch = hexDigitCh v
  | [], _, ch, hch => absurd hch (List.not_mem_nil ch)
  | [g], hlt, ch, hch => by
    rw [show interColon ([g].map appendHex) = appendHex g from rfl] at hch
    exact Or.inr (appendHex_mem g (hlt g (by simp)) ch hch)
  | g :: g2 :: t, hlt, ch, hch => by
    rw [show interColon ((g :: g2 :: t).map appendHex)
        = appendHex g ++ ':' :: interColon ((g2 :: t).map appendHex) from rfl] at hch
    rcases List.mem_append.mp hch with h | h
    · exact Or.inr (appendHex_mem g (hlt g (by simp)) ch h)
    · rcases List.mem_cons.mp h with h | h
      · exact Or.inl h
      · exact interColon_chars (g2 :: t) (fun x hx => hlt x (by simp [hx])) ch h

/-- Every character of the IPv6 rendering is a `':'` or a hex digit. -/
theorem ipv6Str_chars (ip : GoBytes) (hb : ∀ b ∈ ip, b < 256) :
    ∀ ch ∈ ipv6Str ip, ch = ':' ∨ ∃ v, v < 16 ∧ ch = hexDigitCh v := by
  intro ch hch
  have hglt := groupsOf_lt ip hb
  cases hbr : bestRun (groupsOf ip) with
  | none =>
    have hch' : ch ∈ interColon ((groupsOf ip).map appendHex) := by
      have hstr : ipv6Str ip = interColon ((groupsOf ip).map appendHex) := by
        unfold ipv6Str
        simp only [hbr]
      rw [← hstr]
      exact hch
    exact interColon_chars _ hglt ch hch'
  | some best =>
    obtain ⟨a, l⟩ := best
    have hch' : ch ∈ (interColon (((groupsOf ip).take a).map appendHex) ++ [':', ':']) ++
        interColon (((groupsOf ip).drop (a + l)).map appendHex) := by
      have hstr : ipv6Str ip = interColon (((groupsOf ip).take a).map appendHex) ++
          "::".toList ++ interColon (((groupsOf ip).drop (a + l)).map appendHex) := by
        unfold ipv6Str
        simp only [hbr]
      rw [hstr] at hch
      exact hch
    rcases List.mem_append.mp hch' with h | h
    · rcases List.mem_append.mp h with h2 | h2
      · exact interColon_chars _ (fun x hx => hglt x (List.take_subset _ _ hx)) ch h2
      · left
        rcases List.mem_cons.mp h2 with h3 | h3
        · exact h3
        · simpa using h3
    · exact interColon_chars _ (fun x hx => hglt x (List.drop_subset _ _ hx)) ch h

/-- No character of the IPv6 rendering is a `'.'`, `'/'` or `'%'`. -/
theorem ipv6Str_nochar (ip : GoBytes) (hb : ∀ b ∈ ip, b < 256) :
    ∀ ch ∈ ipv6Str ip,
      (ch == '.') = false ∧ (ch == '/') = false ∧ (ch == '%') = false := by
  intro ch hch
  rcases ipv6Str_chars ip hb ch hch with h | ⟨v, hv, h⟩
  · subst h
    refine ⟨by decide, by decide, by decide⟩
  · subst h
    obtain ⟨f1, -, f3, f4, -, -⟩ := hexDigitCh_facts v hv
    exact ⟨f1, f3, f4⟩

theorem findIdx_none_aux (p : Char → Bool) : ∀ (l : List Char) (i : Nat),
    (∀ c ∈ l, p c = false) → List.findIdx? p l i = none
  | [], _, _ => rfl
  | c :: t, i, h => by
    rw [List.findIdx?_cons, h c (List.mem_cons_self c t)]
    simp only [Bool.false_eq_true, if_false]
    exact findIdx_none_aux p t (i + 1) (fun x hx => h x (List.mem_cons_of_mem c hx))

/-- `splitHostZone` leaves a string without `'%'` intact. -/
theorem splitHostZone_nopct (s : List Char) (h : ∀ c ∈ s, (c == '%') = false) :
    splitHostZone s = (s, []) := by
  unfold splitHostZone
  rw [findIdx_none_aux (fun x => x == '%') s.reverse 0
    (fun c hc => h c (List.mem_reverse.mp hc))]

/-- `parseIPv4` fails on every string without a `'.'`. -/
theorem parseIPv4_no_dot (s : List Char) (hd : ∀ c ∈ s, (c == '.') = false) :
    parseIPv4 s = none := by
  unfold parseIPv4
  cases s with
  | nil => rfl
  | cons c t =>
    have h1 : parseIPv4Aux 4 (c :: t) [] =
        (match dtoi (c :: t) with
         | (n, cc, ok) => if ok && decide (n ≤ 0xFF) then
             parseIPv4Aux 3 ((c :: t).drop cc) ([] ++ [n]) else none) := rfl
    rw [h1]
    rcases hdt : dtoi (c :: t) with ⟨n, cc, ok⟩
    show (if (ok && decide (n ≤ 0xFF)) = true then
        parseIPv4Aux 3 ((c :: t).drop cc) ([] ++ [n]) else none) = none
    by_cases hcond : (ok && decide (n ≤ 0xFF)) = true
    · rw [if_pos hcond]
      cases hs2 : (c :: t).drop cc with
      | nil => rfl
      | cons c2 t2 =>
        have hc2 : (c2 == '.') = false :=
          hd c2 (List.drop_subset cc (c :: t) (by rw [hs2]; exact List.mem_cons_self c2 t2))
        have h2 : parseIPv4Aux 3 (c2 :: t2) ([] ++ [n]) =
            (match (match c2 :: t2 with | '.' :: r => some r | _ => none) with
             | none => none
             | some s2 =>
               match dtoi s2 with
               | (n2, c3, ok2) => if ok2 && decide (n2 ≤ 0xFF) then
                   parseIPv4Aux 2 (s2.drop c3) (([] ++ [n]) ++ [n2]) else none) := rfl
        rw [h2]
        have hX : (match c2 :: t2 with | '.' :: r => some r | _ => none)
            = (none : Option (List Char)) := by
          split
          · rename_i r heq
            exfalso
            injection heq with hA hB
            rw [hA] at hc2
            simp at hc2
          · rfl
        rw [hX]
    · rw [if_neg hcond]

/-- `parseIPv6Zone` inverts the IPv6 rendering (no zone is present). -/
theorem parseIPv6Zone_ipv6Str (ip : GoBytes) (hb : ∀ b ∈ ip, b < 256)
    (hlen : ip.length = 16) :
    parseIPv6Zone (ipv6Str ip) = some ip := by
  unfold parseIPv6Zone
  rw [splitHostZone_nopct (ipv6Str ip) (fun c hc => (ipv6Str_nochar ip hb c hc).2.2)]
  exact parseIPv6_ipv6Str ip hb hlen

/-- `net.ParseCIDR` on a dotted-quad `/32` rendering. -/
theorem parseCIDR_dotted32 (a b c d : Nat) (ha : a ≤ 255) (hb2 : b ≤ 255) (hc : c ≤ 255)
    (hd : d ≤ 255) :
    parseCIDR (dotted [a, b, c, d] ++ '/' :: uitoa 32) =
      some (ipv4Of a b c d, [a, b, c, d], cidrMask 32 32) := by
  have hnos : ∀ ch ∈ dotted [a, b, c, d], (ch == '/') = false := by
    intro ch hch
    rcases dotted_chars a b c d ch hch with h | h
    · have hne : ch ≠ '/' := by
        intro he
        rw [he] at h
        exact absurd h (by decide)
      exact beq_eq_false_iff_ne.mpr hne
    · rw [h]
      decide
  have h32 : uitoa 32 = ['3', '2'] := by decide
  have hdt : dtoi ['3', '2'] = (32, 2, true) := by decide
  unfold parseCIDR
  rw [h32]
  rw [findIdx_slash (dotted [a, b, c, d]) hnos ['3', '2']]
  have hdrop : (dotted [a, b, c, d] ++ '/' :: ['3', '2']).drop
      ((dotted [a, b, c, d]).length + 1) = ['3', '2'] := by
    simp [List.drop_append]
  simp only [List.take_left, hdrop, parseIPv4_dotted a b c d ha hb2 hc hd, hdt,
    Option.isSome_some, if_true]
  rw [if_neg (by decide)]
  rw [ipMaskOp_v4mapped a b c d (by
    intro v hv
    simp only [List.mem_cons, List.not_mem_nil, or_false] at hv
    rcases hv with h | h | h | h <;> omega)]

/-- `net.ParseCIDR` on an IPv6 `/128` rendering. -/
theorem parseCIDR_v6_128 (ip : GoBytes) (hb : ∀ b ∈ ip, b < 256) (hlen : ip.length = 16) :
    parseCIDR (ipv6Str ip ++ '/' :: uitoa 128) = some (ip, ip, cidrMask 128 128) := by
  have hnos : ∀ ch ∈ ipv6Str ip, (ch == '/') = false :=
    fun ch hch => (ipv6Str_nochar ip hb ch hch).2.1
  have h128 : uitoa 128 = ['1', '2', '8'] := by decide
  have hdt : dtoi ['1', '2', '8'] = (128, 3, true) := by decide
  have hp4 : parseIPv4 (ipv6Str ip) = none :=
    parseIPv4_no_dot (ipv6Str ip) (fun c hc => (ipv6Str_nochar ip hb c hc).1)
  unfold parseCIDR
  rw [h128]
  rw [findIdx_slash (ipv6Str ip) hnos ['1', '2', '8']]
  have hdrop : (ipv6Str ip ++ '/' :: ['1', '2', '8']).drop ((ipv6Str ip).length + 1)
      = ['1', '2', '8'] := by
    simp [List.drop_append]
  simp only [List.take_left, hdrop, hp4, parseIPv6Zone_ipv6Str ip hb hlen, hdt,
    Option.isSome_none, Bool.false_eq_true, if_false]
  rw [if_neg (by decide)]
  rw [ipMaskOp_v6full ip hb hlen]

/-- Well-formedness of one Result entry as the Go code produces it: byte
values in range, an address that is 4 or 16 bytes long, and a `"4"`
version only on an address `To4` accepts. -/
def wfIPConfig (c : IPConfig) : Prop :=
  (∀ b ∈ c.ip, b < 256) ∧ (c.ip.length = 4 ∨ c.ip.length = 16) ∧
    (c.version = "4".toList → (to4 c.ip).isSome = true)

instance (c : IPConfig) : Decidable (wfIPConfig c) :=
  decidable_of_iff ((∀ b ∈ c.ip, b < 256) ∧ (c.ip.length = 4 ∨ c.ip.length = 16) ∧
    (c.version = "4".toList → (to4 c.ip).isSome = true)) Iff.rfl

/-- The address family as Go's `ipAddr.To4() != nil` test sees it. -/
def family4 (c : IPConfig) : Bool := (to4 c.ip).isSome

/-- The relation claim C9 asserts between an entry of the original
Result and the corresponding entry reconstructed from the endpoint: the
same address, with host mask and version matching the address family. -/
def roundTripRel (c c2 : IPConfig) : Prop :=
  ipEqual c.ip c2.ip = true ∧
  c2.version = (if family4 c then "4".toList else "6".toList) ∧
  c2.mask = (if family4 c then cidrMask 32 32 else cidrMask 128 128)

theorem list_len4 (l : GoBytes) (h : l.length = 4) : ∃ a b c d, l = [a, b, c, d] := by
  cases l with
  | nil => simp at h
  | cons a l1 =>
    cases l1 with
    | nil => simp at h
    | cons b l2 =>
      cases l2 with
      | nil => simp at h
      | cons c l3 =>
        cases l3 with
        | nil => simp at h
        | cons d l4 =>
          cases l4 with
          | nil => exact ⟨a, b, c, d, rfl⟩
          | cons e l5 => simp at h

theorem to4_len4 (l : GoBytes) (h : l.length = 4) : to4 l = some l := by
  unfold to4
  rw [if_pos h]

theorem to4_some_16 (ip p4 : GoBytes) (hlen : ip.length = 16) (h : to4 ip = some p4) :
    (ip.take 12 == v4InV6Head) = true ∧ p4 = ip.drop 12 := by
  unfold to4 at h
  rw [if_neg (by omega)] at h
  by_cases hc : (ip.length = 16 && ip.take 12 == v4InV6Head) = true
  · rw [if_pos hc] at h
    refine ⟨?_, (Option.some.inj h).symm⟩
    simp only [Bool.and_eq_true] at hc
    exact hc.2
  · rw [if_neg hc] at h
    simp at h

theorem ipEqual_16_4 (ip p4 : GoBytes) (hlen : ip.length = 16)
    (hpre : (ip.take 12 == v4InV6Head) = true) (hd : p4 = ip.drop 12) :
    ipEqual ip p4 = true := by
  have hp4len : p4.length = 4 := by rw [hd, List.length_drop, hlen]
  unfold ipEqual
  rw [if_neg (by rw [hlen, hp4len]; omega)]
  rw [if_neg (by simp [hlen])]
  rw [if_pos ⟨hlen, hp4len⟩]
  rw [hpre, hd]
  simp

theorem nnAndMask_to4_32 (ip p4 : GoBytes) (h4 : to4 ip = some p4) (hp4 : p4.length = 4) :
    nnAndMask ip (cidrMask 32 32) = some (p4, [255, 255, 255, 255]) := by
  simp [nnAndMask, h4, hp4, cidrMask_32]

theorem nnAndMask_to4_128 (ip p4 : GoBytes) (h4 : to4 ip = some p4) (hp4 : p4.length = 4) :
    nnAndMask ip (cidrMask 128 128) = some (p4, [255, 255, 255, 255]) := by
  simp [nnAndMask, h4, hp4, cidrMask_128]

theorem nnAndMask_v6 (ip : GoBytes) (hto4 : to4 ip = none) (hlen : ip.length = 16) :
    nnAndMask ip (cidrMask 128 128) = some (ip, cidrMask 128 128) := by
  simp [nnAndMask, hto4, hlen, cidrMask_128]

theorem ipStr_len4 (l : GoBytes) (h : l.length = 4) : ipStr l = dotted l := by
  have hne : ¬ (l.isEmpty = true) := by
    cases l with
    | nil => simp at h
    | cons a t => simp
  unfold ipStr
  rw [if_neg hne, to4_len4 l h]

theorem simpleMaskLength_all4 : simpleMaskLength [255, 255, 255, 255] = some 32 := by decide

/-- `IPNet.String` on an address `To4` accepts with either host mask:
dotted quad plus `/32`. -/
theorem ipNetStr_to4 (ip p4 : GoBytes) (h4 : to4 ip = some p4) (hp4 : p4.length = 4)
    (m : GoBytes) (hm : m = cidrMask 32 32 ∨ m = cidrMask 128 128) :
    ipNetStr ip m = dotted p4 ++ '/' :: uitoa 32 := by
  have hnn : nnAndMask ip m = some (p4, [255, 255, 255, 255]) := by
    rcases hm with hm | hm <;> subst hm
    · exact nnAndMask_to4_32 ip p4 h4 hp4
    · exact nnAndMask_to4_128 ip p4 h4 hp4
  unfold ipNetStr
  rw [hnn]
  simp only [simpleMaskLength_all4]
  rw [ipStr_len4 p4 hp4]
  show dotted p4 ++ ['/'] ++ uitoa 32 = dotted p4 ++ '/' :: uitoa 32
  rw [List.append_assoc]
  rfl

/-- `IPNet.String` on a 16-byte address `To4` rejects, with the IPv6 host
mask: IPv6 rendering plus `/128`. -/
theorem ipNetStr_v6none (ip : GoBytes) (hto4 : to4 ip = none) (hlen : ip.length = 16) :
    ipNetStr ip (cidrMask 128 128) = ipv6Str ip ++ '/' :: uitoa 128 := by
  have hne : ¬ (ip.isEmpty = true) := by
    cases ip with
    | nil => simp at hlen
    | cons a t => simp
  have hsm : simpleMaskLength (cidrMask 128 128) = some 128 := by decide
  unfold ipNetStr
  rw [nnAndMask_v6 ip hto4 hlen]
  simp only [hsm]
  have hips : ipStr ip = ipv6Str ip := by
    unfold ipStr
    rw [if_neg hne, hto4]
    show (if ip.length ≠ 16 then '?' :: hexString ip else ipv6Str ip) = ipv6Str ip
    rw [if_neg (by omega)]
  rw [hips]
  show ipv6Str ip ++ ['/'] ++ uitoa 128 = ipv6Str ip ++ '/' :: uitoa 128
  rw [List.append_assoc]
  rfl

/-- The round trip for one Result entry: the rendered CIDR string parses
back to the same address with host mask, and the parsed address family
matches the original entry's. -/
theorem config_roundTrip (c : IPConfig) (h : wfIPConfig c) :
    ∃ p nip,
      parseCIDR (ipNetStr c.ip
          (if c.version = "4".toList then cidrMask 32 32 else cidrMask 128 128)) =
        some (p, nip, if family4 c then cidrMask 32 32 else cidrMask 128 128) ∧
      ipEqual c.ip nip = true ∧ (to4 p).isSome = family4 c := by
  obtain ⟨hb, hlen, hver⟩ := h
  have hm : (if c.version = "4".toList then cidrMask 32 32 else cidrMask 128 128)
        = cidrMask 32 32 ∨
      (if c.version = "4".toList then cidrMask 32 32 else cidrMask 128 128)
        = cidrMask 128 128 := by
    by_cases hv : c.version = "4".toList
    · exact Or.inl (if_pos hv)
    · exact Or.inr (if_neg hv)
  rcases hlen with hlen | hlen
  · have h4 : to4 c.ip = some c.ip := to4_len4 c.ip hlen
    have hfam : family4 c = true := by unfold family4; rw [h4]; rfl
    obtain ⟨a, b, e, d, hip⟩ := list_len4 c.ip hlen
    have hbnds : ∀ v ∈ [a, b, e, d], v < 256 := by rw [← hip]; exact hb
    refine ⟨ipv4Of a b e d, [a, b, e, d], ?_, ?_, ?_⟩
    · rw [ipNetStr_to4 c.ip c.ip h4 hlen _ hm, hip]
      rw [parseCIDR_dotted32 a b e d (by have := hbnds a (by simp); omega)
        (by have := hbnds b (by simp); omega) (by have := hbnds e (by simp); omega)
        (by have := hbnds d (by simp); omega)]
      simp [hfam]
    · rw [hip]
      exact ipEqual_self _
    · rw [to4_ipv4Of, hfam]
      rfl
  · cases h4 : to4 c.ip with
    | some p4 =>
      obtain ⟨hpre, hp4d⟩ := to4_some_16 c.ip p4 hlen h4
      have hp4len : p4.length = 4 := by rw [hp4d, List.length_drop, hlen]
      have hfam : family4 c = true := by unfold family4; rw [h4]; rfl
      obtain ⟨a, b, e, d, hip4⟩ := list_len4 p4 hp4len
      have hbnds : ∀ v ∈ [a, b, e, d], v < 256 := by
        rw [← hip4]
        intro v hv
        exact hb v (List.drop_subset 12 c.ip (by rw [← hp4d]; exact hv))
      refine ⟨ipv4Of a b e d, [a, b, e, d], ?_, ?_, ?_⟩
      · rw [ipNetStr_to4 c.ip p4 h4 hp4len _ hm, hip4]
        rw [parseCIDR_dotted32 a b e d (by have := hbnds a (by simp); omega)
          (by have := hbnds b (by simp); omega) (by have := hbnds e (by simp); omega)
          (by have := hbnds d (by simp); omega)]
        simp [hfam]
      · rw [← hip4]
        exact ipEqual_16_4 c.ip p4 hlen hpre hp4d
      · rw [to4_ipv4Of, hfam]
        rfl
    | none =>
      have hfam : family4 c = false := by unfold family4; rw [h4]; rfl
      have hv : ¬ c.version = "4".toList := by
        intro hveq
        have hs := hver hveq
        rw [h4] at hs
        simp at hs
      refine ⟨c.ip, c.ip, ?_, ipEqual_self c.ip, ?_⟩
      · rw [if_neg hv]
        rw [ipNetStr_v6none c.ip h4 hlen]
        rw [parseCIDR_v6_128 c.ip hb hlen]
        simp [hfam]
      · rw [h4, hfam]
        rfl

theorem createResultAux_roundTrip : ∀ (cs acc : List IPConfig),
    (∀ c ∈ cs, wfIPConfig c) →
    ∃ l, createResultAux (cs.map (fun c => ipNetStr c.ip
          (if c.version = "4".toList then cidrMask 32 32 else cidrMask 128 128))) acc
        = some (acc ++ l) ∧ List.Forall₂ roundTripRel cs l
  | [], acc, _ => ⟨[], by simp [createResultAux], List.Forall₂.nil⟩
  | c :: cs', acc, hwf => by
    obtain ⟨p, nip, hparse, heq, hfam⟩ := config_roundTrip c (hwf c (List.mem_cons_self c cs'))
    obtain ⟨l2, hrec, hfa⟩ := createResultAux_roundTrip cs' (acc ++
        [{ version := (if (to4 p).isSome then "4".toList else "6".toList), ip := nip,
            mask := (if family4 c then cidrMask 32 32 else cidrMask 128 128) }])
      (fun x hx => hwf x (List.mem_cons_of_mem c hx))
    refine ⟨{ version := (if (to4 p).isSome then "4".toList else "6".toList), ip := nip,
              mask := (if family4 c then cidrMask 32 32 else cidrMask 128 128) } :: l2,
      ?_, ?_⟩
    · rw [List.map_cons]
      have hstep : createResultAux
          (ipNetStr c.ip (if c.version = "4".toList then cidrMask 32 32 else cidrMask 128 128)
            :: cs'.map (fun c2 => ipNetStr c2.ip
              (if c2.version = "4".toList then cidrMask 32 32 else cidrMask 128 128))) acc
          = createResultAux (cs'.map (fun c2 => ipNetStr c2.ip
              (if c2.version = "4".toList then cidrMask 32 32 else cidrMask 128 128)))
            (acc ++ [{ version := (if (to4 p).isSome then "4".toList else "6".toList),
                       ip := nip,
                       mask := (if family4 c then cidrMask 32 32 else cidrMask 128 128) }])
          := by
        rw [show createResultAux
            (ipNetStr c.ip (if c.version = "4".toList then cidrMask 32 32
                else cidrMask 128 128)
              :: cs'.map (fun c2 => ipNetStr c2.ip
                (if c2.version = "4".toList then cidrMask 32 32 else cidrMask 128 128))) acc
            = (match parseCIDR (ipNetStr c.ip (if c.version = "4".toList then cidrMask 32 32
                  else cidrMask 128 128)) with
               | none => none
               | some (ipAddr, netIP, m) =>
                 createResultAux (cs'.map (fun c2 => ipNetStr c2.ip
                     (if c2.version = "4".toList then cidrMask 32 32 else cidrMask 128 128)))
                   (acc ++ [{ version := (if (to4 ipAddr).isSome then "4".toList
                                else "6".toList), ip := netIP, mask := m }]))
            from rfl]
        rw [hparse]
      rw [hstep, hrec, List.append_assoc]
      rfl
    · exact List.Forall₂.cons ⟨heq, by rw [hfam], rfl⟩ hfa

/-- **C9 (amended).** For every Result whose entries are well formed —
byte values in range, addresses 4 or 16 bytes long, and Version `"4"`
only on an address `To4` accepts — populating a fresh WorkloadEndpoint
with `PopulateEndpointNets` and applying `CreateResultFromEndpoint`
succeeds and returns one entry per original IP, in order, carrying an
equal address (up to the v4-mapped embedding), the host mask of its
address family (/32 for IPv4, /128 otherwise) and the matching version
string. -/
theorem endpoint_result_roundTrip (r : CNIResult) (hne : r.ips ≠ [])
    (hwf : ∀ c ∈ r.ips, wfIPConfig c) :
    (PopulateEndpointNets { ipNetworks := [] } r).1 = none ∧
    ∃ res, CreateResultFromEndpoint (PopulateEndpointNets { ipNetworks := [] } r).2.1
        = some res ∧
      List.Forall₂ roundTripRel r.ips res.ips := by
  have hIsE : r.ips.isEmpty = false := by
    cases hr : r.ips with
    | nil => exact absurd hr hne
    | cons a t => rfl
  have hpop : PopulateEndpointNets { ipNetworks := [] } r =
      (none,
       { ipNetworks := [] ++ (r.ips.map (fun c =>
           { c with mask := (if c.version = "4".toList then cidrMask 32 32
                             else cidrMask 128 128) })).map
           (fun c => ipNetStr c.ip c.mask) },
       { r with ips := r.ips.map (fun c =>
           { c with mask := (if c.version = "4".toList then cidrMask 32 32
                             else cidrMask 128 128) }) }) := by
    unfold PopulateEndpointNets
    rw [if_neg (by rw [hIsE]; simp)]
  rw [hpop]
  refine ⟨rfl, ?_⟩
  obtain ⟨l, hrec, hfa⟩ := createResultAux_roundTrip r.ips [] hwf
  refine ⟨{ ips := l }, ?_, hfa⟩
  unfold CreateResultFromEndpoint
  have hlist : ({ ipNetworks := [] ++ (r.ips.map (fun c =>
          { c with mask := (if c.version = "4".toList then cidrMask 32 32
                            else cidrMask 128 128) })).map (fun c => ipNetStr c.ip c.mask) }
        : WorkloadEndpoint).ipNetworks
      = r.ips.map (fun c => ipNetStr c.ip
          (if c.version = "4".toList then cidrMask 32 32 else cidrMask 128 128)) := by
    show ([] : List GoStr) ++ _ = _
    rw [List.nil_append, List.map_map]
    rfl
  rw [hlist, hrec]
  rfl

/-- The Result on which claim C9's unqualified round trip fails: one
entry whose address is a true 16-byte IPv6 address but whose Version
field says `"4"`. -/
def c9cex : CNIResult :=
  { ips := [{ version := "4".toList,
              ip := [0x20, 0x01, 0x0d, 0xb8, 0, 0, 0, 0, 0, 0, 0, 0, 0, 0, 0, 1],
              mask := [] }] }

/-- **C9 (counterexample).** A Result with one IP for which
`PopulateEndpointNets` succeeds but `CreateResultFromEndpoint` then
fails: the Version `"4"` entry gets mask /32, a 4-byte mask against the
16-byte address makes `IPNet.String` render `"<nil>"`, and parsing that
back errors — contradicting the claim's unconditional success. -/
theorem roundTrip_claim_cex :
    c9cex.ips ≠ [] ∧
    (PopulateEndpointNets { ipNetworks := [] } c9cex).1 = none ∧
    CreateResultFromEndpoint (PopulateEndpointNets { ipNetworks := [] } c9cex).2.1
      = none := by
  refine ⟨by decide, by decide, by decide⟩

/-- A well-formed two-entry Result (one IPv4, one IPv6) for the amended
round trip. -/
def c9wit : CNIResult :=
  { ips := [
      { version := "4".toList, ip := [10, 0, 0, 1], mask := [] },
      { version := "6".toList,
          ip := [0x20, 0x01, 0x0d, 0xb8, 0, 0, 0, 0, 0, 0, 0, 0, 0, 0, 0, 1],
          mask := [] }] }

/-- Witness for `endpoint_result_roundTrip`: the amended round trip at a
concrete Result holding one IPv4 and one IPv6 address. -/
theorem endpoint_result_roundTrip_witness :
    (PopulateEndpointNets { ipNetworks := [] } c9wit).1 = none ∧
    ∃ res, CreateResultFromEndpoint (PopulateEndpointNets { ipNetworks := [] } c9wit).2.1
        = some res ∧
      List.Forall₂ roundTripRel c9wit.ips res.ips :=
  endpoint_result_roundTrip c9wit (by decide) (by decide)

end ClaimTheorems









